import Mathlib

/-!
Verification of the GeoluxCamera serial-camera driver (EnviroDIY/GeoluxCamera).

This file gives a shallow embedding, in Lean, of the protocol-handling core of
`GeoluxCamera.cpp`:

* `wrRun`              — `GeoluxCamera::waitResponse` (response classifier);
* `stepByte`/`runXfer` — `GeoluxCamera::transferImage` (chunked transfer engine);
* `getImageChunkM`     — `GeoluxCamera::getImageChunk` (single chunk fetcher);
* `getCameraInfoStringM`/`getCameraInfoIntM` — the info-block scanner;
* `waitForReadyGo`     — `GeoluxCamera::waitForReady` (readiness poller).

The byte transport (Arduino `Stream`) is modelled by explicit byte lists: an
oracle gives, for each request, the byte sequence the code's reads observe
within its timeout windows (an empty list models "no response", a short list
models mid-chunk starvation).  Wall-clock deadline tests are modelled by
boolean oracles, instantiated to "never exceeded" for prompt transports.
Machine integers (`int32_t`, `uint32_t`, `int8_t`) are modelled as `Int`/`Nat`
with explicit wrapping where the source casts matter.
-/

namespace Geolux

/-- The value of `(int8_t) b` for a byte value `b` (the source reads each byte
into an `int8_t` in `waitResponse`). -/
def toInt8 (b : Nat) : Int :=
  if b % 256 < 128 then (b % 256 : Int) else (b % 256 : Int) - 256

/-- The value of a `uint32_t` reinterpreted as a signed 32-bit `long`
(as on the return path of `getCameraInfoInt`). -/
def toInt32 (x : Int) : Int :=
  let m := x % 4294967296
  if m < 2147483648 then m else m - 4294967296

/-- The value returned by `static_cast<uint32_t>(x)` for an `int32_t` `x`
(the return statement of `transferImage`). -/
def toUInt32I (x : Int) : Int := x % 4294967296

/-! ## Response classifier: `GeoluxCamera::waitResponse`

`waitResponse(timeout_ms, data, r1, r2, r3, r4)` repeatedly reads available
bytes, skips each byte whose `int8_t` decoding is `<= 0`, appends the rest to
`data`, and after each append tests `data.endsWith(rk)` for the non-null
terminators in order `r1..r4`, returning the 1-based index of the first match.
If the deadline elapses with no match it clears `data` and returns 0.

The model processes the byte list the transport offers within the deadline;
`none` models a null terminator pointer. -/

/-- Arduino `String::endsWith`, on byte lists. -/
def endsW (r d : List Nat) : Bool := decide (r <:+ d)

/-- One round of the terminator tests of `waitResponse` (source order
`r1`, `r2`, `r3`, `r4`; a null terminator is never tested). -/
def checkTerms (r1 r2 r3 r4 : Option (List Nat)) (data : List Nat) : Nat :=
  if (r1.map (fun r => endsW r data)).getD false then 1
  else if (r2.map (fun r => endsW r data)).getD false then 2
  else if (r3.map (fun r => endsW r data)).getD false then 3
  else if (r4.map (fun r => endsW r data)).getD false then 4
  else 0

/-- The byte-processing loop of `waitResponse`: skip bytes whose `int8_t`
decoding is `<= 0`, append the rest, return on the first terminator match.
When the input is exhausted (deadline elapsed), return index 0 with the
accumulated data cleared, as the source does. -/
def wrRun (r1 r2 r3 r4 : Option (List Nat)) (data : List Nat) :
    List Nat → Nat × List Nat
  | [] => (0, [])
  | b :: rest =>
    if toInt8 b ≤ 0 then wrRun r1 r2 r3 r4 data rest
    else
      let d := data ++ [b]
      let idx := checkTerms r1 r2 r3 r4 d
      if idx = 0 then wrRun r1 r2 r3 r4 d rest else (idx, d)

/-- The bytes of `input` that `waitResponse` appends to its buffer (those whose
`int8_t` decoding is positive). -/
def wrKeep (input : List Nat) : List Nat :=
  input.filter (fun b => decide (0 < toInt8 b))

/-- The terminator argument of `waitResponse` selected by a 1-based index. -/
def getTerm (r1 r2 r3 r4 : Option (List Nat)) : Nat → Option (List Nat)
  | 1 => r1
  | 2 => r2
  | 3 => r3
  | 4 => r4
  | _ => none

/-! ## Transfer engine: `GeoluxCamera::transferImage`

Session state of one image transfer.  `out` is the byte sequence written to
the output sink (`xferStream->write`), in order.  `eof_seen` and `late_writes`
are ghost instrumentation that does not influence the computation: `eof_seen`
records whether the `eof` flag has ever been true, and `late_writes` counts
sink writes that happen after the first moment `eof` became true. -/
structure XferState where
  total_bytes_read : Int
  total_bytes_written : Int
  bytes_remaining : Int
  start_next_chunk : Int
  chunk_number : Int
  prev_bytes : List Nat
  eof : Bool
  out : List Nat
  eof_seen : Bool
  late_writes : Nat
  deriving Repr, DecidableEq

/-- Initial session state of `transferImage` for a resolved `image_size`
(`bytes_remaining = image_size + start_data_byte(2) + extra_read_buff(12)`). -/
def initXfer (image_size : Int) : XferState :=
  { total_bytes_read := 0, total_bytes_written := 0,
    bytes_remaining := image_size + 2 + 12,
    start_next_chunk := 0, chunk_number := 0,
    prev_bytes := [0, 0, 0, 0], eof := false, out := [],
    eof_seen := false, late_writes := 0 }

/-- The body of the inner per-byte loop of `transferImage`, for the byte `b`
read at inner index `i`, in source order:

1. `bytes_read++ / total_bytes_read++`;
2. declared-length zero heuristic: `total_bytes_written >= image_size && b == 0`
   sets `eof`;
3. past-header write: `i >= start_data_byte && !eof` writes `b` to the sink;
4. mid-chunk deadline check (`isTmo` is true when `millis() - start > 120000`):
   forces `total_bytes_written = bytes_remaining`;
5. rolling window update `prev_bytes[total_bytes_read % 4] = b` and the
   `0xFF 0xD9` / `0xFF 0xD8` marker tests against the previous byte slot. -/
def stepByte (image_size : Int) (isTmo : Bool) (i : Int) (st : XferState)
    (b : Nat) : XferState :=
  let tbr := st.total_bytes_read + 1
  let eof1 := st.eof || (decide (image_size ≤ st.total_bytes_written) && (b == 0))
  let doWrite := decide (2 ≤ i) && !eof1
  let tbw1 := if doWrite then st.total_bytes_written + 1 else st.total_bytes_written
  let out1 := if doWrite then st.out ++ [b] else st.out
  let tbw2 := if isTmo then st.bytes_remaining else tbw1
  let j : Nat := (tbr % 4).toNat
  let k : Nat := if j = 0 then 3 else j - 1
  let pw := st.prev_bytes.set j b
  let eof2 := if b == 0xD9 && pw.getD k 0 == 0xFF then true else eof1
  let eof3 := if b == 0xD8 && pw.getD k 0 == 0xFF then false else eof2
  { total_bytes_read := tbr, total_bytes_written := tbw2,
    bytes_remaining := st.bytes_remaining,
    start_next_chunk := st.start_next_chunk,
    chunk_number := st.chunk_number,
    prev_bytes := pw, eof := eof3, out := out1,
    eof_seen := st.eof_seen || eof1 || eof2,
    late_writes := st.late_writes + (if doWrite && st.eof_seen then 1 else 0) }

/-- The inner loop `for (i = 0; i < bytesToRead + start_data_byte; i++)` of
`transferImage`.  `bytes` is what the transport offers within the 10 ms
per-byte waits; exhausting it models "No more characters available" (the
`break`).  Returns the final state and `bytes_read`, the number of bytes
consumed (the final value of `i` when started at 0).  `tmo` is the mid-chunk
deadline oracle, indexed by the global byte counter. -/
def chunkGo (image_size : Int) (tmo : Int → Bool) (bytesToRead : Int) :
    Int → XferState → List Nat → XferState × Int
  | i, st, [] => (st, i)
  | i, st, b :: rest =>
    if i < bytesToRead + 2 then
      chunkGo image_size tmo bytesToRead (i + 1)
        (stepByte image_size (tmo (st.total_bytes_read + 1)) i st b) rest
    else (st, i)

/-- The outer `while (!eof && millis() - start_xfer_millis < 120000L)` loop of
`transferImage`.  `tp offset len` is the byte sequence the transport offers
for the ranged-read request `get_image=offset,len,RAW` (`[]` models total
silence, i.e. the `continue` branch); `live` is the outer deadline oracle
(indexed by remaining fuel, true while `millis() - start < 120000`); `fuel`
bounds the number of outer iterations (the wall clock backstop guarantees
finiteness in the source). -/
def runXfer (tp : Int → Int → List Nat) (live : Nat → Bool) (tmo : Int → Bool)
    (image_size chunk_size : Int) : Nat → XferState → XferState
  | 0, st => st
  | fuel + 1, st =>
    if st.eof = false ∧ live (fuel + 1) then
      let bytesToRead := min chunk_size (max st.bytes_remaining 1)
      let delivered := tp st.start_next_chunk bytesToRead
      if delivered = [] then
        runXfer tp live tmo image_size chunk_size fuel st
      else
        let p := chunkGo image_size tmo bytesToRead 0 st delivered
        let adv := min p.2 bytesToRead
        let st2 := { p.1 with
          bytes_remaining := p.1.bytes_remaining - adv,
          start_next_chunk := p.1.start_next_chunk + adv,
          chunk_number := p.1.chunk_number + 1 }
        if st2.eof then st2
        else runXfer tp live tmo image_size chunk_size fuel st2
    else st

/-- `transferImage` for a caller-supplied non-zero `image_size` (a zero
`image_size` is first resolved by `getImageSize`; theorems below quantify over
the resolved size).  Returns `static_cast<uint32_t>(total_bytes_written)`. -/
def transferImageRet (tp : Int → Int → List Nat) (live : Nat → Bool)
    (tmo : Int → Bool) (image_size chunk_size : Int) (fuel : Nat) : Int :=
  toUInt32I (runXfer tp live tmo image_size chunk_size fuel
    (initXfer image_size)).total_bytes_written

/-- The previous-byte window slot of a session state: `prev_bytes[k]` for
`k = total_bytes_read % 4` (the slot the most recent byte was stored in). -/
def prevB (st : XferState) : Nat :=
  st.prev_bytes.getD (st.total_bytes_read % 4).toNat 0

/-! ## Stream-state models for the chunk fetcher and the info-block scanner

`CamStream` models the camera `Stream`: the bytes the code's reads will
observe, plus the configured read timeout (`getTimeout`/`setTimeout`). -/
structure CamStream where
  buf : List Nat
  timeout : Nat
  deriving Repr, DecidableEq

/-- `Stream::find(target, length)`: read and discard bytes until the target
byte string has been read; on success the bytes through the end of the target
are consumed; on failure (timeout) the whole stream is drained. -/
def findConsume (pat : List Nat) : List Nat → Option (List Nat)
  | [] => if pat = [] then some [] else none
  | b :: rest =>
    if pat.isPrefixOf (b :: rest) then some ((b :: rest).drop pat.length)
    else findConsume pat rest

/-- `Stream::readStringUntil(c)`: read bytes up to and including the first
occurrence of `c` (the terminator is consumed but not returned); on timeout
return everything read.  Yields (string read, remaining stream). -/
def readStringUntilM (c : Nat) : List Nat → List Nat × List Nat
  | [] => ([], [])
  | b :: rest =>
    if b = c then ([], rest)
    else
      let p := readStringUntilM c rest
      (b :: p.1, p.2)

/-- `Stream::readBytesUntil(c, buf, cap)`: like `readStringUntilM` but stops
after `cap` bytes have been stored (the terminator byte is consumed only if
reached).  Yields (bytes stored, remaining stream). -/
def readBytesUntilM (c : Nat) : Nat → List Nat → List Nat × List Nat
  | _, [] => ([], [])
  | 0, l => ([], l)
  | cap + 1, b :: rest =>
    if b = c then ([], rest)
    else
      let p := readBytesUntilM c cap rest
      (b :: p.1, p.2)

/-- The drain loop `while (_stream->find('#')) { _stream->readStringUntil('\n'); }`
at the end of the info-block scanners. -/
def drainInfoLines : Nat → List Nat → List Nat
  | 0, l => l
  | fuel + 1, l =>
    match findConsume [35] l with
    | none => []
    | some rest => drainInfoLines fuel (readStringUntilM 10 rest).2

/-- `GeoluxCamera::getImageChunk(buf, offset, length)` after the ranged-read
command: if no bytes arrive within 5 s, return 0 having copied nothing;
otherwise discard the 2 header bytes, shorten the stream timeout to 15 ms,
`readBytes(buf, length)`, restore the timeout, and return the count read.
Yields (returned count, bytes copied into `buf`, final stream state). -/
def getImageChunkM (s : CamStream) (length : Nat) : Nat × List Nat × CamStream :=
  if s.buf = [] then (0, [], s)
  else
    let afterHdr := s.buf.drop 2
    let prev := s.timeout
    let s1 : CamStream := { buf := afterHdr, timeout := 15 }
    let copied := s1.buf.take length
    let s2 : CamStream := { buf := s1.buf.drop length, timeout := prev }
    (copied.length, copied, s2)

/-- The skip loop `for (skips = numberSkips; skips; skips--) find(skipTag)` of
the info-block scanners (a failed find drains the stream). -/
def skipTimes (skipTag : List Nat) : Nat → List Nat → List Nat
  | 0, l => l
  | n + 1, l =>
    match findConsume skipTag (skipTimes skipTag n l) with
    | none => []
    | some r => r

/-- `GeoluxCamera::getCameraInfoString` after the `get_info` command: find the
start tag (failure returns the empty string with the stream drained and the
timeout untouched); then shorten the timeout to 15 ms, skip `numberSkips`
occurrences of the skip tag, read to the end tag, drain the remaining
`#`-lines, and restore the timeout. -/
def getCameraInfoStringM (s : CamStream) (startTag : List Nat) (endTag : Nat)
    (numberSkips : Nat) (skipTag : List Nat) : List Nat × CamStream :=
  match findConsume startTag s.buf with
  | none => ([], { buf := [], timeout := s.timeout })
  | some rest =>
    let prev := s.timeout
    let p := readStringUntilM endTag (skipTimes skipTag numberSkips rest)
    let drained := drainInfoLines (p.2.length + 1) p.2
    (p.1, { buf := drained, timeout := prev })

/-- The C `atol`: skip leading whitespace, then an optional sign, then decimal
digits up to the first non-digit. -/
def atolDigits (acc : Int) : List Nat → Int
  | [] => acc
  | c :: t => if 48 ≤ c ∧ c ≤ 57 then atolDigits (acc * 10 + ((c : Int) - 48)) t else acc

/-- The C `atol` on a byte string. -/
def atolM (l : List Nat) : Int :=
  let l1 := l.dropWhile (fun c => c == 32 || (9 ≤ c && c ≤ 13))
  match l1 with
  | 43 :: t => atolDigits 0 t
  | 45 :: t => - atolDigits 0 t
  | _ => atolDigits 0 l1

/-- `GeoluxCamera::getCameraInfoInt`: like `getCameraInfoStringM` but the
field is read with `readBytesUntil(endTag, buf, 11)` into an 11-byte buffer;
a read of 0 or 11 bytes leaves the `-1` sentinel (`uint32_t resp = -1`
returned through `long`), otherwise the field is parsed with `atol`. -/
def getCameraInfoIntM (s : CamStream) (startTag : List Nat) (endTag : Nat)
    (numberSkips : Nat) (skipTag : List Nat) : Int × CamStream :=
  match findConsume startTag s.buf with
  | none => (-1, { buf := [], timeout := s.timeout })
  | some rest =>
    let prev := s.timeout
    let p := readBytesUntilM endTag 11 (skipTimes skipTag numberSkips rest)
    let resp : Int :=
      if p.1.length ≠ 0 ∧ p.1.length < 11 then toInt32 (atolM p.1) else -1
    let drained := drainInfoLines (p.2.length + 1) p.2
    (resp, { buf := drained, timeout := prev })

/-! ## Readiness poller: `GeoluxCamera::waitForReady` -/

/-- The camera statuses (`geolux_status`, with `NO_RESPONSE` the initial value
`waitResponse` timeout produces). -/
inductive GStatus | OK | ERROR | BUSY | NONE | NO_RESPONSE
  deriving Repr, DecidableEq

/-- A status is terminal-success for `waitForReady`. -/
def gReady (s : GStatus) : Bool := s = GStatus.OK || s = GStatus.NONE

/-- The polling loop of `waitForReady`.  `st k` is the status the `k`-th
`getStatus()` query returns and `dur k` the wall-clock milliseconds that query
takes; `e` is `millis() - start_millis` at the loop test.  Each unsuccessful
poll adds the fixed 100 ms inter-poll delay.  On terminal-success the function
returns the elapsed time after the query; if the timeout elapses first it
returns 0. -/
def waitForReadyGo (st : Nat → GStatus) (dur : Nat → Nat) (timeout : Nat) :
    Nat → Nat → Nat
  | k, e =>
    if e < timeout then
      let e1 := e + dur k
      if gReady (st k) then e1
      else waitForReadyGo st dur timeout (k + 1) (e1 + 100)
    else 0
  termination_by _ e => timeout - e
  decreasing_by omega

/-- `waitForReady(initial_delay, timeout)`: `start_millis` is taken before the
initial delay, so the loop starts with `e = initial_delay`. -/
def waitForReadyM (st : Nat → GStatus) (dur : Nat → Nat)
    (initial_delay timeout : Nat) : Nat :=
  waitForReadyGo st dur timeout 0 initial_delay

/-- `millis() - start_millis` at the loop test before the `(k + j)`-th status
query of `waitForReady`, assuming the test before query `k` sees elapsed time
`e` and queries `k .. k + j - 1` all fail (each failing poll costs its query
duration plus the fixed 100 ms inter-poll delay). -/
def elapsedFrom (dur : Nat → Nat) (k e : Nat) : Nat → Nat
  | 0 => e
  | j + 1 => elapsedFrom dur k e j + dur (k + j) + 100

/-- Shifting the base of `elapsedFrom` by one failing poll. -/
theorem elapsedFrom_shift (dur : Nat → Nat) (k e : Nat) :
    ∀ j, elapsedFrom dur (k + 1) (e + dur k + 100) j = elapsedFrom dur k e (j + 1) := by
  intro j
  induction j with
  | zero => simp [elapsedFrom]
  | succ n ih =>
    show elapsedFrom dur (k + 1) (e + dur k + 100) n + dur (k + 1 + n) + 100 = _
    rw [ih]
    have : k + 1 + n = k + (n + 1) := by omega
    rw [this]
    rfl

/-- If every status query that happens before the deadline fails, the polling
loop of `waitForReady` returns 0. -/
theorem waitForReadyGo_timeout (st : Nat → GStatus) (dur : Nat → Nat)
    (timeout : Nat) :
    ∀ n k e, timeout - e ≤ n →
      (∀ j, elapsedFrom dur k e j < timeout → gReady (st (k + j)) = false) →
      waitForReadyGo st dur timeout k e = 0 := by
  intro n
  induction n with
  | zero =>
    intro k e hle _
    rw [waitForReadyGo]
    rw [if_neg (by omega)]
  | succ n ih =>
    intro k e hle hfail
    rw [waitForReadyGo]
    by_cases he : e < timeout
    · have h0 : gReady (st k) = false := by
        have := hfail 0 (by simpa [elapsedFrom] using he)
        simpa using this
      rw [if_pos he, h0]
      simp only [Bool.false_eq_true, if_false]
      exact ih (k + 1) (e + dur k + 100) (by omega)
        (fun j hj => by
          rw [elapsedFrom_shift] at hj
          have := hfail (j + 1) hj
          have hk : k + 1 + j = k + (j + 1) := by omega
          rw [hk]
          exact this)
    · rw [if_neg he]

/-- If the first `m` status queries fail, query `m` succeeds, and the deadline
has not elapsed at any of the loop tests up to and including the one before
query `m`, the polling loop returns the elapsed time at the end of query `m`. -/
theorem waitForReadyGo_success (st : Nat → GStatus) (dur : Nat → Nat)
    (timeout : Nat) :
    ∀ m k e, (∀ j, j < m → gReady (st (k + j)) = false) →
      gReady (st (k + m)) = true →
      (∀ j, j ≤ m → elapsedFrom dur k e j < timeout) →
      waitForReadyGo st dur timeout k e = elapsedFrom dur k e m + dur (k + m) := by
  intro m
  induction m with
  | zero =>
    intro k e _ hready hdl
    rw [waitForReadyGo]
    have he : e < timeout := by simpa [elapsedFrom] using hdl 0 (by omega)
    rw [if_pos he]
    have hready0 : gReady (st k) = true := by simpa using hready
    rw [hready0]
    simp [elapsedFrom]
  | succ m ih =>
    intro k e hfail hready hdl
    rw [waitForReadyGo]
    have he : e < timeout := by simpa [elapsedFrom] using hdl 0 (by omega)
    rw [if_pos he]
    have h0 : gReady (st k) = false := by simpa using hfail 0 (by omega)
    rw [h0]
    simp only [Bool.false_eq_true, if_false]
    have := ih (k + 1) (e + dur k + 100)
      (fun j hj => by
        have := hfail (j + 1) (by omega)
        have hk : k + 1 + j = k + (j + 1) := by omega
        rw [hk]; exact this)
      (by
        have hk : k + 1 + m = k + (m + 1) := by omega
        rw [hk]; exact hready)
      (fun j hj => by
        rw [elapsedFrom_shift]
        exact hdl (j + 1) (by omega))
    rw [this, elapsedFrom_shift]
    have hk : k + 1 + m = k + (m + 1) := by omega
    rw [hk]

/-- Claim C8 (refuted): `waitForReady` does not return 0 only on timeout.  A
status query that returns OK instantly (0 ms elapsed, 0 ms query duration, no
initial delay) succeeds well within the 60000 ms timeout, yet the function
returns `millis() - start_millis = 0`, the same sentinel as a timeout. -/
theorem claim_C8_zero_overlap_counterexample :
    waitForReadyM (fun _ => GStatus.OK) (fun _ => 0) 0 60000 = 0 ∧
      gReady ((fun _ => GStatus.OK) 0) = true ∧ (0 : Nat) < 60000 := by
  refine ⟨?_, by decide, by decide⟩
  unfold waitForReadyM
  rw [waitForReadyGo]
  simp [gReady]

/-- Claim C8 (amended): `waitForReady` returns 0 whenever the caller timeout
elapses without any completed status query returning OK or NONE, and when a
query does return OK or NONE before the timeout it returns the elapsed time in
milliseconds — which can itself be 0 for an immediate response, so a 0 return
does not uniquely indicate a timeout. -/
theorem claim_C8_waitForReady (st : Nat → GStatus) (dur : Nat → Nat)
    (initial_delay timeout : Nat) :
    ((∀ j, elapsedFrom dur 0 initial_delay j < timeout →
        gReady (st j) = false) →
      waitForReadyM st dur initial_delay timeout = 0) ∧
    (∀ m, (∀ j, j < m → gReady (st j) = false) → gReady (st m) = true →
      (∀ j, j ≤ m → elapsedFrom dur 0 initial_delay j < timeout) →
      waitForReadyM st dur initial_delay timeout
        = elapsedFrom dur 0 initial_delay m + dur m) := by
  constructor
  · intro hfail
    exact waitForReadyGo_timeout st dur timeout (timeout - initial_delay) 0
      initial_delay (le_refl _) (fun j hj => by simpa using hfail j hj)
  · intro m hfail hready hdl
    have := waitForReadyGo_success st dur timeout m 0 initial_delay
      (fun j hj => by simpa using hfail j hj) (by simpa using hready) hdl
    simpa [waitForReadyM] using this

/-- Witness for claim C8: the status sequence BUSY, BUSY, OK with 5 ms query
durations and a 100 ms inter-poll delay returns 215 ms, and an all-BUSY
sequence returns the 0 sentinel on a 60 s timeout. -/
theorem claim_C8_waitForReady_witness :
    waitForReadyM (fun k => if k < 2 then GStatus.BUSY else GStatus.OK)
        (fun _ => 5) 0 60000 = 215 ∧
      waitForReadyM (fun _ => GStatus.BUSY) (fun _ => 5) 0 60000 = 0 := by
  constructor
  · have h := (claim_C8_waitForReady
        (fun k => if k < 2 then GStatus.BUSY else GStatus.OK)
        (fun _ => 5) 0 60000).2 2
      (fun j hj => by interval_cases j <;> decide)
      (by decide)
      (fun j hj => by interval_cases j <;> simp [elapsedFrom])
    rw [h]
    simp [elapsedFrom]
  · have h := (claim_C8_waitForReady (fun _ => GStatus.BUSY)
        (fun _ => 5) 0 60000).1 (fun j _ => by decide)
    exact h

/-! ## Claim C6: the chunk fetcher never copies more than `length` bytes -/

/-- Claim C6: for every stream state, offset and requested length,
`getImageChunk` copies at most `length` bytes into the destination buffer and
its returned count never exceeds `length`. -/
theorem claim_C6_chunk_bound (s : CamStream) (length : Nat) :
    (getImageChunkM s length).2.1.length ≤ length ∧
      (getImageChunkM s length).1 ≤ length := by
  unfold getImageChunkM
  by_cases h : s.buf = [] <;> simp [h, List.length_take]

/-! ## Claim C9: the configured stream timeout is restored on every path -/

/-- Claim C9: `getImageChunk`, `getCameraInfoString` and `getCameraInfoInt`
leave the configured stream read timeout unchanged on return: the paths that
shorten it to the 15 ms per-byte constant restore the saved value, and early
returns happen before any timeout modification. -/
theorem claim_C9_timeout_restored (s : CamStream) (length : Nat)
    (startTag skipTag : List Nat) (endTag : Nat) (numberSkips : Nat) :
    (getImageChunkM s length).2.2.timeout = s.timeout ∧
      (getCameraInfoStringM s startTag endTag numberSkips skipTag).2.timeout
        = s.timeout ∧
      (getCameraInfoIntM s startTag endTag numberSkips skipTag).2.timeout
        = s.timeout := by
  refine ⟨?_, ?_, ?_⟩
  · unfold getImageChunkM
    by_cases h : s.buf = [] <;> simp [h]
  · unfold getCameraInfoStringM
    cases findConsume startTag s.buf <;> simp
  · unfold getCameraInfoIntM
    cases findConsume startTag s.buf <;> simp

/-! ## Claim C7: the 10-digit budget of `getCameraInfoInt` -/

/-- `readBytesUntilM` on a stream that starts with a terminator-free field
stores exactly the first `cap` bytes of the field. -/
theorem readBytesUntilM_field (c : Nat) (field rest : List Nat)
    (hc : c ∉ field) :
    ∀ cap, (readBytesUntilM c cap (field ++ c :: rest)).1 = field.take cap := by
  induction field with
  | nil =>
    intro cap
    cases cap <;> simp [readBytesUntilM]
  | cons f ft ih =>
    intro cap
    have hf : f ≠ c := fun h => hc (h ▸ List.mem_cons_self f ft)
    have hft : c ∉ ft := fun h => hc (List.mem_cons_of_mem f h)
    cases cap with
    | zero => simp [readBytesUntilM]
    | succ n =>
      simp only [List.cons_append, readBytesUntilM, if_neg hf]
      simp [ih hft n]

/-- `Stream::find` on a stream that starts with the pattern consumes exactly
the pattern. -/
theorem findConsume_self (pat X : List Nat) :
    findConsume pat (pat ++ X) = some X := by
  cases hp : pat ++ X with
  | nil =>
    rcases List.append_eq_nil.mp hp with ⟨h1, h2⟩
    subst h1; subst h2; simp [findConsume]
  | cons b rest =>
    rw [findConsume]
    have hpre : pat.isPrefixOf (b :: rest) := by
      rw [← hp]; exact List.isPrefixOf_iff_prefix.mpr (List.prefix_append pat X)
    rw [if_pos hpre, ← hp, List.drop_left]

/-- Claim C7: in `getCameraInfoInt`, when the start label heads the stream and
the field before the end delimiter is terminator-free, a field of 1 to 10
bytes is parsed as a signed integer (`atol` through the 32-bit return), while
a field of 11 or more bytes is rejected as overflow with the `-1` sentinel. -/
theorem claim_C7_int_overflow (s : CamStream) (startTag field rest : List Nat)
    (endTag : Nat) (skipTag : List Nat)
    (hbuf : s.buf = startTag ++ (field ++ endTag :: rest))
    (hfree : endTag ∉ field) :
    (11 ≤ field.length →
      (getCameraInfoIntM s startTag endTag 0 skipTag).1 = -1) ∧
    (1 ≤ field.length → field.length ≤ 10 →
      (getCameraInfoIntM s startTag endTag 0 skipTag).1 = toInt32 (atolM field)) := by
  have hfind : findConsume startTag s.buf = some (field ++ endTag :: rest) := by
    rw [hbuf]; exact findConsume_self _ _
  have hread := readBytesUntilM_field endTag field rest hfree 11
  constructor
  · intro hlen
    simp only [getCameraInfoIntM, hfind, skipTimes, hread]
    have h11 : (field.take 11).length = 11 := by
      rw [List.length_take]; omega
    simp [h11]
  · intro h1 h10
    simp only [getCameraInfoIntM, hfind, skipTimes, hread]
    have ht : field.take 11 = field := List.take_of_length_le (by omega)
    rw [ht]
    have hcond : field.length ≠ 0 ∧ field.length < 11 := by omega
    simp [hcond]

/-- Witness for claim C7: the two-digit field `"77"` after label
`"#quality:"` parses to 77, and an eleven-digit field is rejected as `-1`. -/
theorem claim_C7_int_overflow_witness :
    (getCameraInfoIntM ⟨[35, 113, 58] ++ ([55, 55] ++ 13 :: [10]), 1000⟩
        [35, 113, 58] 13 0 [44]).1 = 77 ∧
    (getCameraInfoIntM ⟨[35, 113, 58] ++
          ([49, 50, 51, 52, 53, 54, 55, 56, 57, 48, 49] ++ 13 :: [10]), 1000⟩
        [35, 113, 58] 13 0 [44]).1 = -1 := by
  constructor
  · have h := (claim_C7_int_overflow ⟨[35, 113, 58] ++ ([55, 55] ++ 13 :: [10]), 1000⟩
      [35, 113, 58] [55, 55] [10] 13 [44] rfl (by decide)).2 (by decide) (by decide)
    rw [h]; decide
  · exact (claim_C7_int_overflow ⟨[35, 113, 58] ++
      ([49, 50, 51, 52, 53, 54, 55, 56, 57, 48, 49] ++ 13 :: [10]), 1000⟩
      [35, 113, 58] [49, 50, 51, 52, 53, 54, 55, 56, 57, 48, 49] [10] 13 [44]
      rfl (by decide)).1 (by decide)

/-! ## Claim C2: suffix classification of `waitResponse` -/

/-- `checkTerms` returns 0 exactly when no non-null terminator is a suffix of
the buffer. -/
theorem checkTerms_eq_zero_iff (r1 r2 r3 r4 : Option (List Nat)) (d : List Nat) :
    checkTerms r1 r2 r3 r4 d = 0 ↔
      ∀ i r, getTerm r1 r2 r3 r4 i = some r → ¬ r <:+ d := by
  constructor
  · intro h i r hi hs
    have hw : endsW r d = true := decide_eq_true hs
    match i, hi with
    | 1, hi =>
      simp only [getTerm] at hi
      unfold checkTerms at h
      rw [hi] at h
      simp [hw] at h
    | 2, hi =>
      simp only [getTerm] at hi
      unfold checkTerms at h
      rw [hi] at h
      split_ifs at h <;> simp_all
    | 3, hi =>
      simp only [getTerm] at hi
      unfold checkTerms at h
      rw [hi] at h
      split_ifs at h <;> simp_all
    | 4, hi =>
      simp only [getTerm] at hi
      unfold checkTerms at h
      rw [hi] at h
      split_ifs at h <;> simp_all
  · intro h
    unfold checkTerms
    have h1 : (r1.map (fun r => endsW r d)).getD false = false := by
      cases hr : r1 with
      | none => rfl
      | some r =>
        simpa [endsW] using h 1 r (by simp [getTerm, hr])
    have h2 : (r2.map (fun r => endsW r d)).getD false = false := by
      cases hr : r2 with
      | none => rfl
      | some r =>
        simpa [endsW] using h 2 r (by simp [getTerm, hr])
    have h3 : (r3.map (fun r => endsW r d)).getD false = false := by
      cases hr : r3 with
      | none => rfl
      | some r =>
        simpa [endsW] using h 3 r (by simp [getTerm, hr])
    have h4 : (r4.map (fun r => endsW r d)).getD false = false := by
      cases hr : r4 with
      | none => rfl
      | some r =>
        simpa [endsW] using h 4 r (by simp [getTerm, hr])
    simp [h1, h2, h3, h4]

/-- When `checkTerms` returns a non-zero index, that terminator is present and
is a suffix of the buffer. -/
theorem checkTerms_pos (r1 r2 r3 r4 : Option (List Nat)) (d : List Nat)
    (h : checkTerms r1 r2 r3 r4 d ≠ 0) :
    ∃ r, getTerm r1 r2 r3 r4 (checkTerms r1 r2 r3 r4 d) = some r ∧ r <:+ d := by
  unfold checkTerms at h ⊢
  split_ifs at h ⊢ with g1 g2 g3 g4
  · cases hr : r1 with
    | none => rw [hr] at g1; simp at g1
    | some r =>
      rw [hr] at g1
      simp only [Option.map_some, Option.getD_some, endsW] at g1
      exact ⟨r, by simp [getTerm, hr], of_decide_eq_true g1⟩
  · cases hr : r2 with
    | none => rw [hr] at g2; simp at g2
    | some r =>
      rw [hr] at g2
      simp only [Option.map_some, Option.getD_some, endsW] at g2
      exact ⟨r, by simp [getTerm, hr], of_decide_eq_true g2⟩
  · cases hr : r3 with
    | none => rw [hr] at g3; simp at g3
    | some r =>
      rw [hr] at g3
      simp only [Option.map_some, Option.getD_some, endsW] at g3
      exact ⟨r, by simp [getTerm, hr], of_decide_eq_true g3⟩
  · cases hr : r4 with
    | none => rw [hr] at g4; simp at g4
    | some r =>
      rw [hr] at g4
      simp only [Option.map_some, Option.getD_some, endsW] at g4
      exact ⟨r, by simp [getTerm, hr], of_decide_eq_true g4⟩
  · exact absurd rfl h

/-- A kept byte passes the filter of `wrKeep`. -/
theorem wrKeep_cons_kept (b : Nat) (p : List Nat) (hb : ¬ toInt8 b ≤ 0) :
    wrKeep (b :: p) = b :: wrKeep p := by
  simp [wrKeep, List.filter_cons, decide_eq_true (lt_of_not_le hb)]

/-- A skipped byte is dropped by `wrKeep`. -/
theorem wrKeep_cons_skipped (b : Nat) (p : List Nat) (hb : toInt8 b ≤ 0) :
    wrKeep (b :: p) = wrKeep p := by
  simp [wrKeep, List.filter_cons, decide_eq_false (not_lt_of_le hb)]

/-- Main induction for `wrRun`: starting from a buffer with no match, either
the run returns 0 and no terminator is a suffix of the buffer at any point of
the input, or it returns the positive index its final buffer matches, that
buffer being the kept bytes of some processed input part appended to the
starting buffer. -/
theorem wrRun_spec (r1 r2 r3 r4 : Option (List Nat)) :
    ∀ (input data : List Nat), checkTerms r1 r2 r3 r4 data = 0 →
      ((wrRun r1 r2 r3 r4 data input).1 = 0 ∧
        ∀ p, p <+: input →
          checkTerms r1 r2 r3 r4 (data ++ wrKeep p) = 0) ∨
      ((wrRun r1 r2 r3 r4 data input).1 ≠ 0 ∧
        checkTerms r1 r2 r3 r4 (wrRun r1 r2 r3 r4 data input).2
          = (wrRun r1 r2 r3 r4 data input).1 ∧
        ∃ p, p <+: input ∧
          (wrRun r1 r2 r3 r4 data input).2 = data ++ wrKeep p) := by
  intro input
  induction input with
  | nil =>
    intro data h0
    left
    refine ⟨rfl, fun p hp => ?_⟩
    rw [List.prefix_nil.mp hp]
    simpa [wrKeep] using h0
  | cons b rest ih =>
    intro data h0
    by_cases hb : toInt8 b ≤ 0
    · have hrun : wrRun r1 r2 r3 r4 data (b :: rest)
          = wrRun r1 r2 r3 r4 data rest := by
        simp [wrRun, hb]
      rcases ih data h0 with ⟨hz, hall⟩ | ⟨hnz, hck, p, hp, hd⟩
      · left
        refine ⟨by rw [hrun]; exact hz, fun p hp => ?_⟩
        rcases List.prefix_cons_iff.mp hp with hnil | ⟨p1, hp1, hpre⟩
        · rw [hnil]; simpa [wrKeep] using h0
        · rw [hp1, wrKeep_cons_skipped b p1 hb]
          exact hall p1 hpre
      · right
        rw [hrun]
        exact ⟨hnz, hck, b :: p, List.cons_prefix_cons.mpr ⟨rfl, hp⟩,
          by rw [wrKeep_cons_skipped b p hb]; exact hd⟩
    · by_cases hidx : checkTerms r1 r2 r3 r4 (data ++ [b]) = 0
      · have hrun : wrRun r1 r2 r3 r4 data (b :: rest)
            = wrRun r1 r2 r3 r4 (data ++ [b]) rest := by
          simp [wrRun, hb, hidx]
        rcases ih (data ++ [b]) hidx with ⟨hz, hall⟩ | ⟨hnz, hck, p, hp, hd⟩
        · left
          refine ⟨by rw [hrun]; exact hz, fun p hp => ?_⟩
          rcases List.prefix_cons_iff.mp hp with hnil | ⟨p1, hp1, hpre⟩
          · rw [hnil]; simpa [wrKeep] using h0
          · rw [hp1, wrKeep_cons_kept b p1 hb]
            have := hall p1 hpre
            simpa [List.append_assoc] using this
        · right
          rw [hrun]
          refine ⟨hnz, hck, b :: p, List.cons_prefix_cons.mpr ⟨rfl, hp⟩, ?_⟩
          rw [wrKeep_cons_kept b p hb, hd]
          simp [List.append_assoc]
      · have hrun : wrRun r1 r2 r3 r4 data (b :: rest)
            = (checkTerms r1 r2 r3 r4 (data ++ [b]), data ++ [b]) := by
          simp [wrRun, hb, hidx]
        right
        rw [hrun]
        refine ⟨hidx, rfl, [b], ⟨rest, rfl⟩, ?_⟩
        rw [wrKeep_cons_kept b [] hb]
        simp [wrKeep]

/-- Claim C2 (refuted as stated): with the degenerate empty-string terminator
(a valid terminator set, vacuously pairwise non-suffix) and an empty byte
stream, the empty terminator is a suffix of the (empty) accumulated stream,
yet `waitResponse` returns 0 rather than its index 1. -/
theorem claim_C2_empty_terminator_counterexample :
    (wrRun (some []) none none none [] []).1 = 0 ∧
      (∀ i j ri rj, i ≠ j → getTerm (some []) none none none i = some ri →
        getTerm (some []) none none none j = some rj → ¬ ri <:+ rj) ∧
      getTerm (some []) none none none 1 = some [] ∧
      ([] : List Nat) <:+ wrKeep [] := by
  refine ⟨rfl, ?_, rfl, List.nil_suffix⟩
  intro i j ri rj hij hi hj
  have hi1 : i = 1 := by
    match i, hi with
    | 0, h => exact Option.noConfusion h
    | 1, _ => rfl
    | 2, h => exact Option.noConfusion h
    | 3, h => exact Option.noConfusion h
    | 4, h => exact Option.noConfusion h
    | n + 5, h => exact Option.noConfusion h
  have hj1 : j = 1 := by
    match j, hj with
    | 0, h => exact Option.noConfusion h
    | 1, _ => rfl
    | 2, h => exact Option.noConfusion h
    | 3, h => exact Option.noConfusion h
    | 4, h => exact Option.noConfusion h
    | n + 5, h => exact Option.noConfusion h
  exact (hij (hi1.trans hj1.symm)).elim

/-- Claim C2 (amended): for every input byte stream and every set of up to 4
non-empty terminator strings that are pairwise non-suffixes of each other,
`waitResponse` returns the index of the unique terminator whose exact string
appears as a suffix of the accumulated stream, and returns 0 exactly when no
terminator appears as such a suffix at any point before the deadline. -/
theorem claim_C2_classifier (r1 r2 r3 r4 : Option (List Nat)) (input : List Nat)
    (hne : ∀ i r, getTerm r1 r2 r3 r4 i = some r → r ≠ [])
    (hpair : ∀ i j ri rj, i ≠ j → getTerm r1 r2 r3 r4 i = some ri →
      getTerm r1 r2 r3 r4 j = some rj → ¬ ri <:+ rj) :
    ((wrRun r1 r2 r3 r4 [] input).1 = 0 →
      ∀ p, p <+: input → ∀ i r, getTerm r1 r2 r3 r4 i = some r →
        ¬ r <:+ wrKeep p) ∧
    ((wrRun r1 r2 r3 r4 [] input).1 ≠ 0 →
      ∃ r, getTerm r1 r2 r3 r4 (wrRun r1 r2 r3 r4 [] input).1 = some r ∧
        r <:+ (wrRun r1 r2 r3 r4 [] input).2 ∧
        (∃ p, p <+: input ∧ (wrRun r1 r2 r3 r4 [] input).2 = wrKeep p) ∧
        ∀ j rj, j ≠ (wrRun r1 r2 r3 r4 [] input).1 →
          getTerm r1 r2 r3 r4 j = some rj →
          ¬ rj <:+ (wrRun r1 r2 r3 r4 [] input).2) := by
  have h0 : checkTerms r1 r2 r3 r4 [] = 0 := by
    rw [checkTerms_eq_zero_iff]
    intro i r hi hs
    exact hne i r hi (List.suffix_nil.mp hs)
  rcases wrRun_spec r1 r2 r3 r4 input [] h0 with ⟨hz, hall⟩ | ⟨hnz, hck, p, hp, hd⟩
  · constructor
    · intro _ p hp i r hi
      have := (checkTerms_eq_zero_iff r1 r2 r3 r4 ([] ++ wrKeep p)).mp
        (hall p hp) i r hi
      simpa using this
    · intro hcon
      exact absurd hz hcon
  · constructor
    · intro hz
      exact absurd hz hnz
    · intro _
      obtain ⟨r, hr, hsuf⟩ := checkTerms_pos r1 r2 r3 r4 _ (hck ▸ hnz)
      rw [hck] at hr
      refine ⟨r, hr, hsuf, ⟨p, hp, by simpa using hd⟩, ?_⟩
      intro j rj hj hjt hjs
      rcases List.suffix_or_suffix_of_suffix hjs hsuf with hc | hc
      · exact hpair j (wrRun r1 r2 r3 r4 [] input).1 rj r hj hjt hr hc
      · exact hpair (wrRun r1 r2 r3 r4 [] input).1 j r rj (Ne.symm hj) hr hjt hc

/-- Witness for claim C2: the stream `"BUSY\r\n"` against the standard
terminator set returns index 3 with buffer `"BUSY\r\n"`, and a stream with no
terminator returns 0. -/
theorem claim_C2_classifier_witness :
    (wrRun (some [79, 75, 13, 10]) (some [69, 82, 82, 13, 10])
        (some [66, 85, 83, 89, 13, 10]) (some [78, 79, 78, 69, 13, 10]) []
        [66, 85, 83, 89, 13, 10]).1 = 3 ∧
      (wrRun (some [79, 75, 13, 10]) (some [69, 82, 82, 13, 10])
        (some [66, 85, 83, 89, 13, 10]) (some [78, 79, 78, 69, 13, 10]) []
        [72, 73]).1 = 0 ∧
      ([66, 85, 83, 89, 13, 10] : List Nat) <:+
        (wrRun (some [79, 75, 13, 10]) (some [69, 82, 82, 13, 10])
          (some [66, 85, 83, 89, 13, 10]) (some [78, 79, 78, 69, 13, 10]) []
          [66, 85, 83, 89, 13, 10]).2 := by
  have h := claim_C2_classifier (some [79, 75, 13, 10]) (some [69, 82, 82, 13, 10])
      (some [66, 85, 83, 89, 13, 10]) (some [78, 79, 78, 69, 13, 10])
      [66, 85, 83, 89, 13, 10]
      (by intro i r hi; match i, hi with
          | 1, hi => cases hi; decide
          | 2, hi => cases hi; decide
          | 3, hi => cases hi; decide
          | 4, hi => cases hi; decide)
      (by intro i j ri rj hij hi hj
          match i, hi with
          | 1, hi => cases hi; match j, hj with
            | 1, hj => exact absurd rfl hij
            | 2, hj => cases hj; decide
            | 3, hj => cases hj; decide
            | 4, hj => cases hj; decide
          | 2, hi => cases hi; match j, hj with
            | 1, hj => cases hj; decide
            | 2, hj => exact absurd rfl hij
            | 3, hj => cases hj; decide
            | 4, hj => cases hj; decide
          | 3, hi => cases hi; match j, hj with
            | 1, hj => cases hj; decide
            | 2, hj => cases hj; decide
            | 3, hj => exact absurd rfl hij
            | 4, hj => cases hj; decide
          | 4, hi => cases hi; match j, hj with
            | 1, hj => cases hj; decide
            | 2, hj => cases hj; decide
            | 3, hj => cases hj; decide
            | 4, hj => exact absurd rfl hij)
  refine ⟨by decide, by decide, ?_⟩
  obtain ⟨r, hr, hsuf, _⟩ := h.2 (by decide)
  have hidx : (wrRun (some [79, 75, 13, 10]) (some [69, 82, 82, 13, 10])
      (some [66, 85, 83, 89, 13, 10]) (some [78, 79, 78, 69, 13, 10]) []
      [66, 85, 83, 89, 13, 10]).1 = 3 := by decide
  rw [hidx] at hr
  cases hr
  exact hsuf

/-! ## Claims C1 and C10: marker window and end-of-frame behaviour -/

/-- A transport for refuting claim C1: one chunk delivering the header bytes,
then `FF D9` (a true end marker), then `FF D8` (a start marker re-opening the
frame), then the payload byte `0x41`, then zero padding. -/
def tpReopen (o : Int) (_len : Int) : List Nat :=
  if o = 0 then [0, 0, 0xFF, 0xD9, 0xFF, 0xD8, 0x41] ++ List.replicate 12 0
  else []

/-- Claim C1 (refuted as stated): a sink write can happen after the first
point at which `end_of_frame` becomes true.  With `image_size = 3`,
`chunk_size = 17` and the `tpReopen` transport, the `FF D9` marker sets `eof`,
the later `FF D8` start marker clears it again, and the byte `0x41` is then
written to the sink: the ghost counter of writes performed after the first
`eof`-set moment is 1, and the sink receives `FF D9 41`. -/
theorem claim_C1_reopen_counterexample :
    (runXfer tpReopen (fun _ => true) (fun _ => false) 3 17 2
        (initXfer 3)).late_writes = 1 ∧
      (runXfer tpReopen (fun _ => true) (fun _ => false) 3 17 2
        (initXfer 3)).out = [0xFF, 0xD9, 0x41] ∧
      (runXfer tpReopen (fun _ => true) (fun _ => false) 3 17 2
        (initXfer 3)).eof = true := by
  refine ⟨by decide, by decide, by decide⟩

/-- Claim C1 (amended): no byte is ever written to the sink while
`end_of_frame` is set — the per-byte write is guarded by the flag — and if the
flag is still set when a chunk completes, the session ends and writes nothing
further.  (A `0xFF 0xD8` start marker arriving later in the same chunk clears
the flag, and writing then resumes, which is the only way a write can follow
the first point at which the flag became true.) -/
theorem claim_C1_no_write_while_eof (image_size : Int) :
    (∀ (isTmo : Bool) (i : Int) (st : XferState) (b : Nat), st.eof = true →
      (stepByte image_size isTmo i st b).out = st.out) ∧
    (∀ (tp : Int → Int → List Nat) (live : Nat → Bool) (tmo : Int → Bool)
      (chunk_size : Int) (fuel : Nat) (st : XferState), st.eof = true →
      runXfer tp live tmo image_size chunk_size fuel st = st) := by
  constructor
  · intro isTmo i st b heof
    simp [stepByte, heof]
  · intro tp live tmo cs fuel st heof
    cases fuel with
    | zero => rfl
    | succ n =>
      rw [runXfer]
      rw [if_neg]
      simp [heof]

/-- Witness for claim C1 (amended): at a concrete state with `eof` set, a
step on byte `0x41` writes nothing, and a session at a state with `eof` set
ends immediately. -/
theorem claim_C1_no_write_while_eof_witness :
    (stepByte 100 false 5 { initXfer 100 with eof := true } 0x41).out = [] ∧
      runXfer tpReopen (fun _ => true) (fun _ => false) 100 17 3
        { initXfer 100 with eof := true } = { initXfer 100 with eof := true } := by
  constructor
  · rw [(claim_C1_no_write_while_eof 100).1 false 5
      { initXfer 100 with eof := true } 0x41 rfl]
    decide
  · exact (claim_C1_no_write_while_eof 100).2 tpReopen (fun _ => true)
      (fun _ => false) 17 3 { initXfer 100 with eof := true } rfl

/-- Reading a list at an index other than the one just set. -/
theorem getD_set_ne (l : List Nat) (j k b : Nat) (h : j ≠ k) :
    (l.set j b).getD k 0 = l.getD k 0 := by
  simp [List.getD, List.getElem?_set, h]

/-- In `stepByte`, the window slot tested by the marker checks holds the
previously processed byte `prevB st`: storing the new byte at index
`total_bytes_read % 4` does not disturb the slot at the previous index. -/
theorem stepByte_prev_slot (st : XferState) (b : Nat) :
    (st.prev_bytes.set (((st.total_bytes_read + 1) % 4).toNat) b).getD
        (if ((st.total_bytes_read + 1) % 4).toNat = 0 then 3
         else ((st.total_bytes_read + 1) % 4).toNat - 1) 0 = prevB st := by
  have hm : st.total_bytes_read % 4 = 0 ∨ st.total_bytes_read % 4 = 1 ∨
      st.total_bytes_read % 4 = 2 ∨ st.total_bytes_read % 4 = 3 := by omega
  unfold prevB
  rcases hm with h | h | h | h
  · have hj : ((st.total_bytes_read + 1) % 4).toNat = 1 := by omega
    have hk : (st.total_bytes_read % 4).toNat = 0 := by omega
    rw [hj, hk]
    simp [getD_set_ne]
  · have hj : ((st.total_bytes_read + 1) % 4).toNat = 2 := by omega
    have hk : (st.total_bytes_read % 4).toNat = 1 := by omega
    rw [hj, hk]
    simp [getD_set_ne]
  · have hj : ((st.total_bytes_read + 1) % 4).toNat = 3 := by omega
    have hk : (st.total_bytes_read % 4).toNat = 2 := by omega
    rw [hj, hk]
    simp [getD_set_ne]
  · have hj : ((st.total_bytes_read + 1) % 4).toNat = 0 := by omega
    have hk : (st.total_bytes_read % 4).toNat = 3 := by omega
    rw [hj, hk]
    simp [getD_set_ne]

/-- A transport for the cross-chunk part of claim C10: the first chunk ends
with payload byte `0xFF`; the first (discarded) header byte of the second
chunk is `0xD9`. -/
def tpSplitMark (o : Int) (_len : Int) : List Nat :=
  if o = 0 then [0, 0, 0x41, 0xFF]
  else if o = 2 then [0xD9, 0, 0, 0]
  else []

/-- Claim C10: every byte — including the 2 discarded header bytes of a chunk
— is fed into the rolling 4-byte marker window in the same way (the window
update and the `FF D9`/`FF D8` marker effects on `end_of_frame` do not depend
on the inner index `i`), and the window persists across chunk boundaries: in a
concrete two-chunk session where `0xFF` is the last payload byte of chunk 1
and `0xD9` is the first header byte of chunk 2, `end_of_frame` is set even
though the `0xD9` is never written to the sink. -/
theorem claim_C10_header_bytes_in_window (image_size : Int) :
    (∀ (isTmo : Bool) (st : XferState) (b : Nat) (i i2 : Int),
      (stepByte image_size isTmo i st b).prev_bytes
        = (stepByte image_size isTmo i2 st b).prev_bytes) ∧
    (∀ (isTmo : Bool) (i : Int) (st : XferState) (b : Nat),
      b = 0xD9 → prevB st = 0xFF →
      (stepByte image_size isTmo i st b).eof = true) ∧
    (∀ (isTmo : Bool) (i : Int) (st : XferState) (b : Nat),
      b = 0xD8 → prevB st = 0xFF →
      (stepByte image_size isTmo i st b).eof = false) ∧
    (runXfer tpSplitMark (fun _ => true) (fun _ => false) 10 2 5
        (initXfer 10)).eof = true ∧
      (runXfer tpSplitMark (fun _ => true) (fun _ => false) 10 2 5
        (initXfer 10)).out = [0x41, 0xFF] := by
  refine ⟨?_, ?_, ?_, by decide, by decide⟩
  · intro isTmo st b i i2
    rfl
  · intro isTmo i st b hb hprev
    subst hb
    simp only [stepByte]
    rw [stepByte_prev_slot st 0xD9, hprev]
    simp
  · intro isTmo i st b hb hprev
    subst hb
    simp only [stepByte]
    rw [stepByte_prev_slot st 0xD8, hprev]
    simp

/-- Witness for claim C10: the marker clauses at a concrete state whose
previous byte is `0xFF`. -/
theorem claim_C10_header_bytes_in_window_witness :
    (stepByte 10 false 0
        { initXfer 10 with prev_bytes := [0xFF, 0, 0, 0] } 0xD9).eof = true ∧
      (stepByte 10 false 1
        { initXfer 10 with prev_bytes := [0xFF, 0, 0, 0], eof := true }
        0xD8).eof = false := by
  constructor
  · exact (claim_C10_header_bytes_in_window 10).2.1 false 0
      { initXfer 10 with prev_bytes := [0xFF, 0, 0, 0] } 0xD9 rfl (by decide)
  · exact (claim_C10_header_bytes_in_window 10).2.2.1 false 1
      { initXfer 10 with prev_bytes := [0xFF, 0, 0, 0], eof := true } 0xD8
      rfl (by decide)

/-! ## Claim C4: how much the transfer engine writes to the sink -/

/-- A transport that keeps answering with non-zero junk (`0x41`) after the
declared image length: two header bytes plus one payload byte per request. -/
def tpJunk (_o _len : Int) : List Nat := [0x41, 0x41, 0x41]

/-- Claim C4 (refuted as stated): without the camera's zero padding after the
image data, `transferImage` keeps writing: with `image_size = 1`,
`chunk_size = 1` and a transport that always answers `41 41 41`, after 16
chunks the sink has received 16 bytes and the returned `total_bytes_written`
is 16, exceeding `image_size + 14 = 15` — and it keeps growing until the
120-second deadline. -/
theorem claim_C4_junk_counterexample :
    (runXfer tpJunk (fun _ => true) (fun _ => false) 1 1 16
        (initXfer 1)).out.length = 16 ∧
      transferImageRet tpJunk (fun _ => true) (fun _ => false) 1 1 16 = 16 ∧
      ¬ (16 : Int) ≤ 1 + 14 := by
  refine ⟨by decide, by decide, by decide⟩

/-- The transports considered by the amended claim C4: every byte delivered at
a payload position at or beyond the declared image size is zero (the camera
documentation: "bytes beyond the end of image will be sent as zeroes").  The
byte at index `idx` of a response to a request at `offset` is the payload byte
at position `offset + idx - 2` (the first two bytes are the discarded junk
header, which may be anything). -/
def zeroBeyond (tp : Int → Int → List Nat) (image_size : Int) : Prop :=
  ∀ o len (idx : Nat), 2 ≤ idx → image_size ≤ o + (idx : Int) - 2 →
    (tp o len).getD idx 0 = 0

/-- Field characterization of `stepByte` when the mid-chunk deadline has not
fired: the counters and the sink grow together exactly on a write. -/
theorem stepByte_tmoF (image_size : Int) (i : Int) (st : XferState) (b : Nat) :
    (stepByte image_size false i st b).total_bytes_written
        = (if (decide (2 ≤ i)
              && !(st.eof
                || (decide (image_size ≤ st.total_bytes_written) && (b == 0))))
          then st.total_bytes_written + 1 else st.total_bytes_written) ∧
      (stepByte image_size false i st b).out
        = (if (decide (2 ≤ i)
              && !(st.eof
                || (decide (image_size ≤ st.total_bytes_written) && (b == 0))))
          then st.out ++ [b] else st.out) ∧
      (stepByte image_size false i st b).start_next_chunk
          = st.start_next_chunk ∧
      (stepByte image_size false i st b).bytes_remaining
          = st.bytes_remaining := by
  refine ⟨rfl, rfl, rfl, rfl⟩

/-- In-chunk invariant for the amended claim C4.  Processing bytes whose
payload positions at or beyond `image_size` are all zero preserves: the sink
length equals `total_bytes_written`; `total_bytes_written` is bounded by the
chunk offset plus the payload positions passed so far; and
`total_bytes_written` never exceeds `image_size`. -/
theorem chunkGo_write_bound (image_size len o : Int) :
    ∀ (bytes : List Nat) (n : Nat) (st : XferState),
      st.start_next_chunk = o →
      (∀ idx : Nat, 2 ≤ n + idx →
        image_size ≤ o + (n : Int) + (idx : Int) - 2 → bytes.getD idx 0 = 0) →
      (st.out.length : Int) = st.total_bytes_written →
      st.total_bytes_written ≤ o + max ((n : Int) - 2) 0 →
      st.total_bytes_written ≤ image_size →
      ((chunkGo image_size (fun _ => false) len (n : Int) st bytes).1.out.length : Int)
          = (chunkGo image_size (fun _ => false) len (n : Int) st bytes).1.total_bytes_written ∧
        (chunkGo image_size (fun _ => false) len (n : Int) st bytes).1.total_bytes_written
          ≤ o + max ((chunkGo image_size (fun _ => false) len (n : Int) st bytes).2 - 2) 0 ∧
        (chunkGo image_size (fun _ => false) len (n : Int) st bytes).1.total_bytes_written
          ≤ image_size ∧
        (chunkGo image_size (fun _ => false) len (n : Int) st bytes).1.start_next_chunk = o ∧
        (chunkGo image_size (fun _ => false) len (n : Int) st bytes).1.bytes_remaining
          = st.bytes_remaining ∧
        (chunkGo image_size (fun _ => false) len (n : Int) st bytes).2
          ≤ max (n : Int) (len + 2) ∧
        (n : Int) ≤ (chunkGo image_size (fun _ => false) len (n : Int) st bytes).2 := by
  intro bytes
  induction bytes with
  | nil =>
    intro n st hsnc _ hout hbnd hN
    exact ⟨hout, hbnd, hN, hsnc, rfl, le_max_left _ _, le_refl _⟩
  | cons b rest ih =>
    intro n st hsnc hzero hout hbnd hN
    simp only [chunkGo]
    by_cases hlt : (n : Int) < len + 2
    · rw [if_pos hlt]
      have hstep := stepByte_tmoF image_size (n : Int) st b
      set w := (decide (2 ≤ (n : Int))
        && !(st.eof
          || (decide (image_size ≤ st.total_bytes_written) && (b == 0)))) with hw
      have hcast : ((n : Int) + 1) = ((n + 1 : Nat) : Int) := by push_cast; ring
      rw [hcast]
      have hzero1 : ∀ idx : Nat, 2 ≤ (n + 1) + idx →
          image_size ≤ o + ((n + 1 : Nat) : Int) + (idx : Int) - 2 →
          rest.getD idx 0 = 0 := by
        intro idx h2 hpos
        have := hzero (idx + 1) (by omega) (by push_cast; push_cast at hpos; omega)
        simpa using this
      have hout1 : ((stepByte image_size false (n : Int) st b).out.length : Int)
          = (stepByte image_size false (n : Int) st b).total_bytes_written := by
        rw [hstep.1, hstep.2.1]
        by_cases hwv : w = true
        · rw [hwv]
          simp
          omega
        · have hwf : w = false := by
            cases hq : w
            · rfl
            · exact absurd hq hwv
          rw [hwf]
          simpa using hout
      have hbnd1 : (stepByte image_size false (n : Int) st b).total_bytes_written
          ≤ o + max (((n + 1 : Nat) : Int) - 2) 0 := by
        rw [hstep.1]
        by_cases hwv : w = true
        · rw [hwv]
          simp only [if_pos rfl]
          have h2n : (2 : Int) ≤ (n : Int) := by
            have hjw := hwv
            rw [hw] at hjw
            exact of_decide_eq_true (Bool.and_elim_left hjw)
          push_cast
          omega
        · have hwf : w = false := by
            cases hq : w
            · rfl
            · exact absurd hq hwv
          rw [hwf]
          simp only [Bool.false_eq_true, if_false]
          push_cast
          push_cast at hbnd
          omega
      have hN1 : (stepByte image_size false (n : Int) st b).total_bytes_written
          ≤ image_size := by
        rw [hstep.1]
        by_cases hwv : w = true
        · rw [hwv]
          simp only [if_pos rfl]
          have h2n : (2 : Int) ≤ (n : Int) := by
            have hjw := hwv
            rw [hw] at hjw
            exact of_decide_eq_true (Bool.and_elim_left hjw)
          by_cases hfull : st.total_bytes_written < image_size
          · omega
          · exfalso
            have hge : image_size ≤ st.total_bytes_written := by omega
            have hb0 : b ≠ 0 := by
              intro hb
              have hjw := hwv
              rw [hw, hb] at hjw
              simp [hge] at hjw
            have hpos : ¬ image_size ≤ o + (n : Int) + 0 - 2 := by
              intro hctr
              exact hb0 (by simpa using hzero 0 (by omega) (by simpa using hctr))
            have : st.total_bytes_written ≤ o + ((n : Int) - 2) := by
              have := hbnd
              have hm : max ((n : Int) - 2) 0 = (n : Int) - 2 := by omega
              rw [hm] at this
              omega
            omega
        · have hwf : w = false := by
            cases hq : w
            · rfl
            · exact absurd hq hwv
          rw [hwf]
          simpa using hN
      have hsnc1 : (stepByte image_size false (n : Int) st b).start_next_chunk = o :=
        hstep.2.2.1 ▸ hsnc
      have := ih (n + 1) (stepByte image_size false (n : Int) st b)
        hsnc1 hzero1 hout1 hbnd1 hN1
      refine ⟨this.1, this.2.1, this.2.2.1, this.2.2.2.1, ?_, ?_, ?_⟩
      · rw [this.2.2.2.2.1, hstep.2.2.2]
      · have h1 := this.2.2.2.2.2.1
        push_cast at h1 ⊢
        omega
      · have h1 := this.2.2.2.2.2.2
        push_cast at h1 ⊢
        omega
    · rw [if_neg hlt]
      exact ⟨hout, hbnd, hN, hsnc, rfl, le_max_left _ _, le_refl _⟩

/-- Step helper for the outer-loop invariant of the amended claim C4: the
end-of-chunk branch (`break` on `eof`, otherwise next iteration). -/
theorem runXfer_bound_step (image_size chunk_size : Int)
    (tp : Int → Int → List Nat) (live : Nat → Bool) (n : Nat)
    (ih : ∀ st : XferState,
      (st.out.length : Int) = st.total_bytes_written →
      st.total_bytes_written ≤ st.start_next_chunk →
      st.total_bytes_written ≤ image_size →
      ((runXfer tp live (fun _ => false) image_size chunk_size n st).out.length : Int)
          = (runXfer tp live (fun _ => false) image_size chunk_size n st).total_bytes_written ∧
        (runXfer tp live (fun _ => false) image_size chunk_size n st).total_bytes_written
          ≤ image_size)
    (st2 : XferState)
    (h1 : (st2.out.length : Int) = st2.total_bytes_written)
    (h2 : st2.total_bytes_written ≤ st2.start_next_chunk)
    (h3 : st2.total_bytes_written ≤ image_size) :
    (((if st2.eof then st2
        else runXfer tp live (fun _ => false) image_size chunk_size n st2) : XferState).out.length : Int)
        = ((if st2.eof then st2
            else runXfer tp live (fun _ => false) image_size chunk_size n st2) : XferState).total_bytes_written ∧
      ((if st2.eof then st2
          else runXfer tp live (fun _ => false) image_size chunk_size n st2) : XferState).total_bytes_written
        ≤ image_size := by
  by_cases heof : st2.eof
  · rw [if_pos heof]
    exact ⟨h1, h3⟩
  · rw [if_neg heof]
    exact ih st2 h1 h2 h3

/-- Outer-loop invariant for the amended claim C4 (positive chunk sizes): the
sink length tracks `total_bytes_written`, which stays below both the next
request offset and `image_size`. -/
theorem runXfer_write_bound (image_size chunk_size : Int)
    (tp : Int → Int → List Nat) (live : Nat → Bool)
    (hcs : 1 ≤ chunk_size) (hzb : zeroBeyond tp image_size) :
    ∀ (fuel : Nat) (st : XferState),
      (st.out.length : Int) = st.total_bytes_written →
      st.total_bytes_written ≤ st.start_next_chunk →
      st.total_bytes_written ≤ image_size →
      ((runXfer tp live (fun _ => false) image_size chunk_size fuel st).out.length : Int)
          = (runXfer tp live (fun _ => false) image_size chunk_size fuel st).total_bytes_written ∧
        (runXfer tp live (fun _ => false) image_size chunk_size fuel st).total_bytes_written
          ≤ image_size := by
  intro fuel
  induction fuel with
  | zero => intro st hout _ hN; exact ⟨hout, hN⟩
  | succ n ih =>
    intro st hout hsnc hN
    rw [runXfer]
    by_cases hcond : st.eof = false ∧ live (n + 1)
    · rw [if_pos hcond]
      by_cases hdel : tp st.start_next_chunk
          (min chunk_size (max st.bytes_remaining 1)) = []
      · rw [if_pos hdel]
        exact ih st hout hsnc hN
      · rw [if_neg hdel]
        have hch := chunkGo_write_bound image_size
          (min chunk_size (max st.bytes_remaining 1)) st.start_next_chunk
          (tp st.start_next_chunk (min chunk_size (max st.bytes_remaining 1)))
          0 st rfl
          (fun idx h2 hpos => hzb st.start_next_chunk _ idx (by omega)
            (by push_cast at hpos ⊢; omega))
          hout (by simpa using hsnc) hN
        obtain ⟨c1, c2, c3, c4, _c5, c6, c7⟩ := hch
        push_cast at c2 c3 c4 c6 c7
        refine runXfer_bound_step image_size chunk_size tp live n ih _ c1 ?_ c3
        show (chunkGo image_size (fun _ => false)
            (min chunk_size (max st.bytes_remaining 1)) 0 st
            (tp st.start_next_chunk
              (min chunk_size (max st.bytes_remaining 1)))).1.total_bytes_written
          ≤ (chunkGo image_size (fun _ => false)
            (min chunk_size (max st.bytes_remaining 1)) 0 st
            (tp st.start_next_chunk
              (min chunk_size (max st.bytes_remaining 1)))).1.start_next_chunk
          + min (chunkGo image_size (fun _ => false)
              (min chunk_size (max st.bytes_remaining 1)) 0 st
              (tp st.start_next_chunk
                (min chunk_size (max st.bytes_remaining 1)))).2
            (min chunk_size (max st.bytes_remaining 1))
        have hlen : 1 ≤ min chunk_size (max st.bytes_remaining 1) := by
          have : 1 ≤ max st.bytes_remaining 1 := le_max_right _ _
          omega
        rw [c4]
        omega
    · rw [if_neg hcond]
      exact ⟨hout, hN⟩

/-- For non-positive chunk sizes the inner loop never reaches the payload
region (`i < bytesToRead + 2 ≤ 2`), so nothing is ever written. -/
theorem chunkGo_no_write (image_size len : Int) (hlen : len ≤ 0) :
    ∀ (bytes : List Nat) (n : Nat) (st : XferState),
      (chunkGo image_size (fun _ => false) len (n : Int) st bytes).1.out = st.out ∧
        (chunkGo image_size (fun _ => false) len (n : Int) st bytes).1.total_bytes_written
          = st.total_bytes_written := by
  intro bytes
  induction bytes with
  | nil => intro n st; exact ⟨rfl, rfl⟩
  | cons b rest ih =>
    intro n st
    simp only [chunkGo]
    by_cases hlt : (n : Int) < len + 2
    · rw [if_pos hlt]
      have hn2 : ¬ (2 : Int) ≤ (n : Int) := by omega
      have hstep := stepByte_tmoF image_size (n : Int) st b
      have hw : (decide (2 ≤ (n : Int))
          && !(st.eof
            || (decide (image_size ≤ st.total_bytes_written) && (b == 0)))) = false := by
        simp [hn2]
      have hcast : ((n : Int) + 1) = ((n + 1 : Nat) : Int) := by push_cast; ring
      rw [hcast]
      have h1 := ih (n + 1) (stepByte image_size false (n : Int) st b)
      rw [hstep.1, hstep.2.1, hw] at h1
      simpa using h1
    · rw [if_neg hlt]
      exact ⟨rfl, rfl⟩

/-- Step helper for the no-write invariant. -/
theorem runXfer_no_write_step (image_size chunk_size : Int)
    (tp : Int → Int → List Nat) (live : Nat → Bool) (n : Nat)
    (ih : ∀ st : XferState,
      (runXfer tp live (fun _ => false) image_size chunk_size n st).out = st.out ∧
        (runXfer tp live (fun _ => false) image_size chunk_size n st).total_bytes_written
          = st.total_bytes_written)
    (st2 : XferState) :
    ((if st2.eof then st2
        else runXfer tp live (fun _ => false) image_size chunk_size n st2) : XferState).out
        = st2.out ∧
      ((if st2.eof then st2
          else runXfer tp live (fun _ => false) image_size chunk_size n st2) : XferState).total_bytes_written
        = st2.total_bytes_written := by
  by_cases heof : st2.eof
  · rw [if_pos heof]
    exact ⟨rfl, rfl⟩
  · rw [if_neg heof]
    exact ih st2

/-- Outer-loop no-write invariant for non-positive chunk sizes. -/
theorem runXfer_no_write (image_size chunk_size : Int)
    (tp : Int → Int → List Nat) (live : Nat → Bool) (hcs : chunk_size ≤ 0) :
    ∀ (fuel : Nat) (st : XferState),
      (runXfer tp live (fun _ => false) image_size chunk_size fuel st).out = st.out ∧
        (runXfer tp live (fun _ => false) image_size chunk_size fuel st).total_bytes_written
          = st.total_bytes_written := by
  intro fuel
  induction fuel with
  | zero => intro st; exact ⟨rfl, rfl⟩
  | succ n ih =>
    intro st
    rw [runXfer]
    by_cases hcond : st.eof = false ∧ live (n + 1)
    · rw [if_pos hcond]
      by_cases hdel : tp st.start_next_chunk
          (min chunk_size (max st.bytes_remaining 1)) = []
      · rw [if_pos hdel]
        exact ih st
      · rw [if_neg hdel]
        have hlen : min chunk_size (max st.bytes_remaining 1) ≤ 0 := by
          have : 1 ≤ max st.bytes_remaining 1 := le_max_right _ _
          omega
        have hch := chunkGo_no_write image_size
          (min chunk_size (max st.bytes_remaining 1)) hlen
          (tp st.start_next_chunk (min chunk_size (max st.bytes_remaining 1)))
          0 st
        have hstep := runXfer_no_write_step image_size chunk_size tp live n ih
          ({ (chunkGo image_size (fun _ => false)
              (min chunk_size (max st.bytes_remaining 1)) 0 st
              (tp st.start_next_chunk
                (min chunk_size (max st.bytes_remaining 1)))).1 with
            bytes_remaining := (chunkGo image_size (fun _ => false)
              (min chunk_size (max st.bytes_remaining 1)) 0 st
              (tp st.start_next_chunk
                (min chunk_size (max st.bytes_remaining 1)))).1.bytes_remaining
              - min (chunkGo image_size (fun _ => false)
                  (min chunk_size (max st.bytes_remaining 1)) 0 st
                  (tp st.start_next_chunk
                    (min chunk_size (max st.bytes_remaining 1)))).2
                (min chunk_size (max st.bytes_remaining 1)),
            start_next_chunk := (chunkGo image_size (fun _ => false)
              (min chunk_size (max st.bytes_remaining 1)) 0 st
              (tp st.start_next_chunk
                (min chunk_size (max st.bytes_remaining 1)))).1.start_next_chunk
              + min (chunkGo image_size (fun _ => false)
                  (min chunk_size (max st.bytes_remaining 1)) 0 st
                  (tp st.start_next_chunk
                    (min chunk_size (max st.bytes_remaining 1)))).2
                (min chunk_size (max st.bytes_remaining 1)),
            chunk_number := (chunkGo image_size (fun _ => false)
              (min chunk_size (max st.bytes_remaining 1)) 0 st
              (tp st.start_next_chunk
                (min chunk_size (max st.bytes_remaining 1)))).1.chunk_number + 1 })
        refine ⟨?_, ?_⟩
        · exact hstep.1.trans hch.1
        · exact hstep.2.trans hch.2
    · rw [if_neg hcond]
      exact ⟨rfl, rfl⟩

/-- Claim C4 (amended): for every transport that delivers only zero bytes at
payload positions beyond the declared `image_size` (the camera's documented
zero padding), every `chunk_size`, every deadline oracle and any number of
chunks, as long as the 120 s deadline does not fire mid-chunk, the number of
bytes `transferImage` writes to the sink never exceeds
`image_size + 14` (2 header bytes + 12 trailing-slack bytes) — in fact it
never exceeds `image_size` — and the returned `total_bytes_written` obeys the
same bound. -/
theorem claim_C4_write_bound (tp : Int → Int → List Nat) (live : Nat → Bool)
    (fuel : Nat) (image_size chunk_size : Int)
    (hN : 0 ≤ image_size) (hN32 : image_size < 2147483648)
    (hzb : zeroBeyond tp image_size) :
    ((runXfer tp live (fun _ => false) image_size chunk_size fuel
        (initXfer image_size)).out.length : Int) ≤ image_size + 14 ∧
      transferImageRet tp live (fun _ => false) image_size chunk_size fuel
        ≤ image_size + 14 := by
  by_cases hcs : 1 ≤ chunk_size
  · have h := runXfer_write_bound image_size chunk_size tp live hcs hzb fuel
      (initXfer image_size) (by simp [initXfer]) (by simp [initXfer])
      (by simpa [initXfer] using hN)
    refine ⟨by omega, ?_⟩
    unfold transferImageRet toUInt32I
    omega
  · have h := runXfer_no_write image_size chunk_size tp live (by omega) fuel
      (initXfer image_size)
    have hout : (runXfer tp live (fun _ => false) image_size chunk_size fuel
        (initXfer image_size)).out = [] := h.1
    have htbw : (runXfer tp live (fun _ => false) image_size chunk_size fuel
        (initXfer image_size)).total_bytes_written = 0 := h.2
    refine ⟨by rw [hout]; simpa using by omega, ?_⟩
    unfold transferImageRet toUInt32I
    omega

/-- Witness for claim C4 (amended): a totally silent transport trivially
delivers only zeroes beyond the image, and the run writes nothing. -/
theorem claim_C4_write_bound_witness :
    ((runXfer (fun _ _ => []) (fun _ => true) (fun _ => false) 5 4 3
        (initXfer 5)).out.length : Int) ≤ 5 + 14 ∧
      transferImageRet (fun _ _ => []) (fun _ => true) (fun _ => false) 5 4 3
        ≤ 5 + 14 :=
  claim_C4_write_bound (fun _ _ => []) (fun _ => true) 3 5 4 (by decide)
    (by decide) (fun o len idx _ _ => by simp)

/-! ## Claim C3: a clean transfer writes exactly `image_size` bytes

The synthetic transport of the claim: each request at `offset` for `len`
bytes is answered by 2 (zero) header bytes followed by
`payload[offset .. offset+len)`, zero padded past the end of the payload, as
the camera documentation specifies. -/

/-- The synthetic per-request transport over a fixed payload. -/
def tpClean (payload : List Nat) (o len : Int) : List Nat :=
  [0, 0] ++ ((payload.drop o.toNat).take len.toNat
    ++ List.replicate (len.toNat - (payload.length - o.toNat)) 0)

/-- No `FF D9` adjacent pair occurs in the list. -/
def ffd9Free : List Nat → Bool
  | x :: y :: t => !(x == 0xFF && y == 0xD9) && ffd9Free (y :: t)
  | _ => true

/-- Claim C3 (refuted as stated): a payload that contains the end marker pair
before its final position stops the transfer early.  With payload
`FF D9 FF D9` (4 bytes ending in a true `FF D9` marker) and `chunk_size = 20`,
the session ends at the first marker with `total_bytes_written = 2 ≠ 4`. -/
theorem claim_C3_interior_marker_counterexample :
    (runXfer (tpClean [0xFF, 0xD9, 0xFF, 0xD9]) (fun _ => true) (fun _ => false)
        4 20 6 (initXfer 4)).total_bytes_written = 2 ∧
      (runXfer (tpClean [0xFF, 0xD9, 0xFF, 0xD9]) (fun _ => true) (fun _ => false)
        4 20 6 (initXfer 4)).eof = true ∧
      ((4 : Int) ≠ 2) ∧
      ([0xFF, 0xD9, 0xFF, 0xD9] : List Nat).length = 4 ∧
      ([0xFF, 0xD9, 0xFF, 0xD9] : List Nat).drop 2 = [0xFF, 0xD9] := by
  refine ⟨by decide, by decide, by decide, by decide, by decide⟩

/-- After any step, the window slot indexed by the new `total_bytes_read % 4`
holds the byte just processed, and the window keeps its 4 slots. -/
theorem prevB_stepByte (image_size : Int) (tm : Bool) (i : Int) (st : XferState)
    (b : Nat) (hlen : st.prev_bytes.length = 4) :
    prevB (stepByte image_size tm i st b) = b ∧
      (stepByte image_size tm i st b).prev_bytes.length = 4 := by
  have hj : ((st.total_bytes_read + 1) % 4).toNat < 4 := by omega
  constructor
  · show (st.prev_bytes.set (((st.total_bytes_read + 1) % 4).toNat) b).getD
        (((stepByte image_size tm i st b).total_bytes_read % 4).toNat) 0 = b
    have htbr : (stepByte image_size tm i st b).total_bytes_read
        = st.total_bytes_read + 1 := rfl
    rw [htbr]
    simp [List.getD, List.getElem?_set_self, hlen ▸ hj]
  · show (st.prev_bytes.set _ b).length = 4
    simp [hlen]

/-- One clean step: with `eof` clear, the heuristic disarmed
(`total_bytes_written < image_size`), a past-header index and no `FF D9` pair
formed with the previous byte, the byte is written and `eof` stays clear. -/
theorem stepByte_clean (image_size : Int) (i : Int) (st : XferState) (x : Nat)
    (h2 : 2 ≤ i) (heof : st.eof = false)
    (htbw : st.total_bytes_written < image_size)
    (hsafe : ¬(prevB st = 0xFF ∧ x = 0xD9)) (hlen : st.prev_bytes.length = 4) :
    (stepByte image_size false i st x).eof = false ∧
      (stepByte image_size false i st x).total_bytes_written
        = st.total_bytes_written + 1 ∧
      (stepByte image_size false i st x).out = st.out ++ [x] ∧
      prevB (stepByte image_size false i st x) = x ∧
      (stepByte image_size false i st x).prev_bytes.length = 4 ∧
      (stepByte image_size false i st x).start_next_chunk = st.start_next_chunk ∧
      (stepByte image_size false i st x).bytes_remaining = st.bytes_remaining ∧
      (stepByte image_size false i st x).total_bytes_read
        = st.total_bytes_read + 1 := by
  have hpb := prevB_stepByte image_size false i st x hlen
  have hnle : ¬ image_size ≤ st.total_bytes_written := by omega
  refine ⟨?_, ?_, ?_, hpb.1, hpb.2, rfl, rfl, rfl⟩
  · show (let tbr := st.total_bytes_read + 1
          let j : Nat := (tbr % 4).toNat
          let k : Nat := if j = 0 then 3 else j - 1
          let pw := st.prev_bytes.set j x
          let eof1 := st.eof
            || (decide (image_size ≤ st.total_bytes_written) && (x == 0))
          let eof2 := if x == 0xD9 && pw.getD k 0 == 0xFF then true else eof1
          if x == 0xD8 && pw.getD k 0 == 0xFF then false else eof2) = false
    simp only [stepByte_prev_slot st x]
    by_cases hd8 : x = 0xD8
    · simp [hd8, heof, hnle]
    · by_cases hd9 : x = 0xD9
      · have hpf : prevB st ≠ 0xFF := fun hp => hsafe ⟨hp, hd9⟩
        simp [hd9, hd8, hpf, heof, hnle]
      · simp [hd9, hd8, heof, hnle]
  · show (if (decide (2 ≤ i)
        && !(st.eof
          || (decide (image_size ≤ st.total_bytes_written) && (x == 0))))
      then st.total_bytes_written + 1 else st.total_bytes_written)
      = st.total_bytes_written + 1
    simp [h2, heof, hnle]
  · show (if (decide (2 ≤ i)
        && !(st.eof
          || (decide (image_size ≤ st.total_bytes_written) && (x == 0))))
      then st.out ++ [x] else st.out) = st.out ++ [x]
    simp [h2, heof, hnle]

/-- One zero-padding step past the declared length: the heuristic fires, `eof`
is (or stays) set, and nothing is written. -/
theorem stepByte_zero_high (image_size : Int) (i : Int) (st : XferState)
    (htbw : image_size ≤ st.total_bytes_written)
    (hlen : st.prev_bytes.length = 4) :
    (stepByte image_size false i st 0).eof = true ∧
      (stepByte image_size false i st 0).total_bytes_written
        = st.total_bytes_written ∧
      (stepByte image_size false i st 0).out = st.out ∧
      (stepByte image_size false i st 0).prev_bytes.length = 4 ∧
      (stepByte image_size false i st 0).start_next_chunk = st.start_next_chunk ∧
      (stepByte image_size false i st 0).bytes_remaining = st.bytes_remaining := by
  have hpb := prevB_stepByte image_size false i st 0 hlen
  refine ⟨?_, ?_, ?_, hpb.2, rfl, rfl⟩
  · show (let tbr := st.total_bytes_read + 1
          let j : Nat := (tbr % 4).toNat
          let k : Nat := if j = 0 then 3 else j - 1
          let pw := st.prev_bytes.set j 0
          let eof1 := st.eof
            || (decide (image_size ≤ st.total_bytes_written) && ((0 : Nat) == 0))
          let eof2 := if (0 : Nat) == 0xD9 && pw.getD k 0 == 0xFF then true else eof1
          if (0 : Nat) == 0xD8 && pw.getD k 0 == 0xFF then false else eof2) = true
    simp [htbw]
  · show (if (decide (2 ≤ i)
        && !(st.eof
          || (decide (image_size ≤ st.total_bytes_written) && ((0 : Nat) == 0))))
      then st.total_bytes_written + 1 else st.total_bytes_written)
      = st.total_bytes_written
    simp [htbw]
  · show (if (decide (2 ≤ i)
        && !(st.eof
          || (decide (image_size ≤ st.total_bytes_written) && ((0 : Nat) == 0))))
      then st.out ++ [0] else st.out) = st.out
    simp [htbw]

/-- The `0xD9` step: with `eof` clear the byte is written, and `eof` is set
exactly when the previous byte was `0xFF`. -/
theorem stepByte_d9 (image_size : Int) (i : Int) (st : XferState)
    (h2 : 2 ≤ i) (heof : st.eof = false) (hlen : st.prev_bytes.length = 4) :
    ((stepByte image_size false i st 0xD9).eof = decide (prevB st = 0xFF)) ∧
      (stepByte image_size false i st 0xD9).total_bytes_written
        = st.total_bytes_written + 1 ∧
      (stepByte image_size false i st 0xD9).out = st.out ++ [0xD9] ∧
      (stepByte image_size false i st 0xD9).prev_bytes.length = 4 ∧
      (stepByte image_size false i st 0xD9).start_next_chunk
        = st.start_next_chunk ∧
      (stepByte image_size false i st 0xD9).bytes_remaining
        = st.bytes_remaining := by
  have hpb := prevB_stepByte image_size false i st 0xD9 hlen
  refine ⟨?_, ?_, ?_, hpb.2, rfl, rfl⟩
  · show (let tbr := st.total_bytes_read + 1
          let j : Nat := (tbr % 4).toNat
          let k : Nat := if j = 0 then 3 else j - 1
          let pw := st.prev_bytes.set j 0xD9
          let eof1 := st.eof
            || (decide (image_size ≤ st.total_bytes_written) && ((0xD9 : Nat) == 0))
          let eof2 := if (0xD9 : Nat) == 0xD9 && pw.getD k 0 == 0xFF then true else eof1
          if (0xD9 : Nat) == 0xD8 && pw.getD k 0 == 0xFF then false else eof2)
        = decide (prevB st = 0xFF)
    simp only [stepByte_prev_slot st 0xD9]
    by_cases hpf : prevB st = 0xFF
    · simp [hpf]
    · simp [hpf, heof]
  · show (if (decide (2 ≤ i)
        && !(st.eof
          || (decide (image_size ≤ st.total_bytes_written) && ((0xD9 : Nat) == 0))))
      then st.total_bytes_written + 1 else st.total_bytes_written)
      = st.total_bytes_written + 1
    simp [h2, heof]
  · show (if (decide (2 ≤ i)
        && !(st.eof
          || (decide (image_size ≤ st.total_bytes_written) && ((0xD9 : Nat) == 0))))
      then st.out ++ [0xD9] else st.out) = st.out ++ [0xD9]
    simp [h2, heof]

/-- Unfolding one inner-loop iteration while the index bound holds. -/
theorem chunkGo_cons (image_size : Int) (tmo : Int → Bool) (limit i : Int)
    (st : XferState) (b : Nat) (L : List Nat) (h : i < limit + 2) :
    chunkGo image_size tmo limit i st (b :: L)
      = chunkGo image_size tmo limit (i + 1)
          (stepByte image_size (tmo (st.total_bytes_read + 1)) i st b) L := by
  simp [chunkGo, h]

/-- Splitting the inner loop over an append, when the first part fits within
the index bound (and is therefore fully consumed). -/
theorem chunkGo_append (image_size : Int) (tmo : Int → Bool) (limit : Int) :
    ∀ (L1 L2 : List Nat) (i : Int) (st : XferState),
      i + L1.length ≤ limit + 2 →
      chunkGo image_size tmo limit i st (L1 ++ L2)
        = chunkGo image_size tmo limit (i + L1.length)
            (chunkGo image_size tmo limit i st L1).1 L2 ∧
      (chunkGo image_size tmo limit i st L1).2 = i + L1.length := by
  intro L1
  induction L1 with
  | nil =>
    intro L2 i st _
    constructor
    · simp [chunkGo]
    · simp [chunkGo]
  | cons b t ih =>
    intro L2 i st h
    simp only [List.length_cons] at h
    have hlt : i < limit + 2 := by
      have : (0 : Int) ≤ (t.length : Int) := by positivity
      push_cast at h
      omega
    rw [List.cons_append, chunkGo_cons image_size tmo limit i st b (t ++ L2) hlt,
      chunkGo_cons image_size tmo limit i st b t hlt]
    have h2 : (i + 1) + (t.length : Int) ≤ limit + 2 := by
      push_cast at h ⊢
      omega
    have := ih L2 (i + 1) (stepByte image_size (tmo (st.total_bytes_read + 1)) i st b) h2
    constructor
    · rw [this.1]
      have harith : i + 1 + (t.length : Int) = i + ((b :: t).length : Int) := by
        simp only [List.length_cons]
        push_cast
        ring
      rw [harith]
    · rw [this.2]
      simp only [List.length_cons]
      push_cast
      ring

/-- Processing a clean segment: all bytes are written, `eof` stays clear, and
the window ends on the last byte of the segment. -/
theorem chunkGo_seg (image_size limit : Int) :
    ∀ (L : List Nat) (i : Int) (st : XferState),
      2 ≤ i → i + L.length ≤ limit + 2 →
      st.eof = false →
      st.total_bytes_written + L.length ≤ image_size →
      ffd9Free (prevB st :: L) = true →
      st.prev_bytes.length = 4 →
      ((chunkGo image_size (fun _ => false) limit i st L).1.eof = false ∧
        (chunkGo image_size (fun _ => false) limit i st L).1.total_bytes_written
          = st.total_bytes_written + L.length ∧
        (chunkGo image_size (fun _ => false) limit i st L).1.out = st.out ++ L ∧
        (chunkGo image_size (fun _ => false) limit i st L).1.start_next_chunk
          = st.start_next_chunk ∧
        (chunkGo image_size (fun _ => false) limit i st L).1.bytes_remaining
          = st.bytes_remaining ∧
        prevB (chunkGo image_size (fun _ => false) limit i st L).1
          = L.getLastD (prevB st) ∧
        (chunkGo image_size (fun _ => false) limit i st L).1.prev_bytes.length = 4 ∧
        (chunkGo image_size (fun _ => false) limit i st L).2 = i + L.length) := by
  intro L
  induction L with
  | nil =>
    intro i st _ _ heof _ _ hlen
    refine ⟨heof, by simp [chunkGo], by simp [chunkGo], rfl, rfl, rfl, hlen, by simp [chunkGo]⟩
  | cons x t ih =>
    intro i st h2 hbound heof htbw hsafe hlen
    simp only [List.length_cons] at hbound htbw
    have hlt : i < limit + 2 := by
      have : (0 : Int) ≤ (t.length : Int) := by positivity
      push_cast at hbound
      omega
    rw [chunkGo_cons image_size (fun _ => false) limit i st x t hlt]
    have hxsafe : ¬(prevB st = 0xFF ∧ x = 0xD9) := by
      intro hctr
      have : (prevB st == 0xFF && x == 0xD9) = true := by
        simp [hctr.1, hctr.2]
      unfold ffd9Free at hsafe
      cases t with
      | nil => simp [this] at hsafe
      | cons y t2 => simp [this] at hsafe
    have htbwlt : st.total_bytes_written < image_size := by
      have : (0 : Int) ≤ (t.length : Int) := by positivity
      push_cast at htbw
      omega
    have hstep := stepByte_clean image_size i st x h2 heof htbwlt hxsafe hlen
    have hsafet : ffd9Free (prevB (stepByte image_size false i st x) :: t) = true := by
      rw [hstep.2.2.2.1]
      cases t with
      | nil => rfl
      | cons y t2 =>
        unfold ffd9Free at hsafe
        exact (Bool.and_elim_right hsafe)
    have := ih (i + 1) (stepByte image_size false i st x) (by omega)
      (by push_cast at hbound ⊢; omega) hstep.1
      (by rw [hstep.2.1]; push_cast at htbw ⊢; omega)
      hsafet hstep.2.2.2.2.1
    refine ⟨this.1, ?_, ?_, ?_, ?_, ?_, this.2.2.2.2.2.2.1, ?_⟩
    · rw [this.2.1, hstep.2.1]
      simp only [List.length_cons]
      push_cast
      ring
    · rw [this.2.2.1, hstep.2.2.1]
      simp
    · rw [this.2.2.2.1, hstep.2.2.2.2.2.1]
    · rw [this.2.2.2.2.1, hstep.2.2.2.2.2.2.1]
    · rw [this.2.2.2.2.2.1, hstep.2.2.2.1, List.getLastD_cons]
    · rw [this.2.2.2.2.2.2.2]
      simp only [List.length_cons]
      push_cast
      ring

/-- Processing zero padding after the declared length: the first zero sets
`eof`, nothing is written, and the counters are unchanged. -/
theorem chunkGo_zeros (image_size limit : Int) :
    ∀ (z : Nat) (i : Int) (st : XferState),
      i + z ≤ limit + 2 →
      image_size ≤ st.total_bytes_written →
      st.prev_bytes.length = 4 →
      ((chunkGo image_size (fun _ => false) limit i st (List.replicate z 0)).1.eof
          = (if z = 0 then st.eof else true) ∧
        (chunkGo image_size (fun _ => false) limit i st (List.replicate z 0)).1.total_bytes_written
          = st.total_bytes_written ∧
        (chunkGo image_size (fun _ => false) limit i st (List.replicate z 0)).1.out
          = st.out ∧
        (chunkGo image_size (fun _ => false) limit i st (List.replicate z 0)).1.start_next_chunk
          = st.start_next_chunk ∧
        (chunkGo image_size (fun _ => false) limit i st (List.replicate z 0)).1.bytes_remaining
          = st.bytes_remaining ∧
        (chunkGo image_size (fun _ => false) limit i st (List.replicate z 0)).1.prev_bytes.length
          = 4 ∧
        (chunkGo image_size (fun _ => false) limit i st (List.replicate z 0)).2
          = i + z) := by
  intro z
  induction z with
  | zero =>
    intro i st _ _ hlen
    refine ⟨by simp [chunkGo], by simp [chunkGo], by simp [chunkGo], rfl, rfl,
      hlen, by simp [chunkGo]⟩
  | succ n ih =>
    intro i st hbound htbw hlen
    have hlt : i < limit + 2 := by
      push_cast at hbound
      omega
    rw [List.replicate_succ,
      chunkGo_cons image_size (fun _ => false) limit i st 0 (List.replicate n 0) hlt]
    have hstep := stepByte_zero_high image_size i st htbw hlen
    have hz := ih (i + 1) (stepByte image_size false i st 0)
      (by push_cast at hbound ⊢; omega) (by rw [hstep.2.1]; exact htbw)
      hstep.2.2.2.1
    refine ⟨?_, ?_, ?_, ?_, ?_, hz.2.2.2.2.2.1, ?_⟩
    · rw [hz.1]
      by_cases hn : n = 0
      · simp [hn, hstep.1]
      · simp [hn]
    · rw [hz.2.1, hstep.2.1]
    · rw [hz.2.2.1, hstep.2.2.1]
    · rw [hz.2.2.2.1, hstep.2.2.2.2.1]
    · rw [hz.2.2.2.2.1, hstep.2.2.2.2.2]
    · rw [hz.2.2.2.2.2.2]
      push_cast
      ring

/-- The tail of a marker-free list is marker-free. -/
theorem ffd9Free_tail (v : Nat) (L : List Nat) (h : ffd9Free (v :: L) = true) :
    ffd9Free L = true := by
  cases L with
  | nil => rfl
  | cons y t => exact Bool.and_elim_right h

/-- Prepending a byte other than `0xFF` preserves marker-freeness. -/
theorem ffd9Free_cons_ne (v : Nat) (L : List Nat) (hv : v ≠ 0xFF)
    (h : ffd9Free L = true) : ffd9Free (v :: L) = true := by
  cases L with
  | nil => rfl
  | cons y t =>
    unfold ffd9Free
    simp [hv, h]

/-- Dropping a prefix preserves marker-freeness. -/
theorem ffd9Free_drop : ∀ (n : Nat) (L : List Nat),
    ffd9Free L = true → ffd9Free (L.drop n) = true := by
  intro n
  induction n with
  | zero => intro L h; simpa using h
  | succ m ih =>
    intro L h
    cases L with
    | nil => rfl
    | cons x t =>
      rw [List.drop_succ_cons]
      exact ih t (ffd9Free_tail x t h)

/-- Taking a prefix preserves marker-freeness. -/
theorem ffd9Free_take : ∀ (L : List Nat) (n : Nat),
    ffd9Free L = true → ffd9Free (L.take n) = true := by
  intro L
  induction L with
  | nil => intro n _; simp [ffd9Free]
  | cons x t ih =>
    intro n h
    cases n with
    | zero => rfl
    | succ m =>
      rw [List.take_succ_cons]
      cases t with
      | nil => simp [ffd9Free]
      | cons y t2 =>
        cases m with
        | zero => simp [ffd9Free]
        | succ m2 =>
          have h1 := Bool.and_elim_left h
          have h2 := Bool.and_elim_right h
          have h3 := ih (m2 + 1) h2
          rw [List.take_succ_cons] at h3
          rw [List.take_succ_cons]
          unfold ffd9Free
          simp only [h3, Bool.and_true]
          exact h1

/-- A header/below-image zero step at an index before the payload region:
nothing changes except the byte counter and the window. -/
theorem stepByte_zero_low (image_size : Int) (i : Int) (st : XferState)
    (hi : i < 2) (htbw : st.total_bytes_written < image_size)
    (hlen : st.prev_bytes.length = 4) :
    (stepByte image_size false i st 0).eof = st.eof ∧
      (stepByte image_size false i st 0).total_bytes_written
        = st.total_bytes_written ∧
      (stepByte image_size false i st 0).out = st.out ∧
      prevB (stepByte image_size false i st 0) = 0 ∧
      (stepByte image_size false i st 0).prev_bytes.length = 4 ∧
      (stepByte image_size false i st 0).start_next_chunk = st.start_next_chunk ∧
      (stepByte image_size false i st 0).bytes_remaining = st.bytes_remaining := by
  have hpb := prevB_stepByte image_size false i st 0 hlen
  have hnle : ¬ image_size ≤ st.total_bytes_written := by omega
  have hni : ¬ (2 : Int) ≤ i := by omega
  refine ⟨?_, ?_, ?_, hpb.1, hpb.2, rfl, rfl⟩
  · show (let tbr := st.total_bytes_read + 1
          let j : Nat := (tbr % 4).toNat
          let k : Nat := if j = 0 then 3 else j - 1
          let pw := st.prev_bytes.set j 0
          let eof1 := st.eof
            || (decide (image_size ≤ st.total_bytes_written) && ((0 : Nat) == 0))
          let eof2 := if (0 : Nat) == 0xD9 && pw.getD k 0 == 0xFF then true else eof1
          if (0 : Nat) == 0xD8 && pw.getD k 0 == 0xFF then false else eof2) = st.eof
    simp [hnle]
  · show (if (decide (2 ≤ i)
        && !(st.eof
          || (decide (image_size ≤ st.total_bytes_written) && ((0 : Nat) == 0))))
      then st.total_bytes_written + 1 else st.total_bytes_written)
      = st.total_bytes_written
    simp [hni]
  · show (if (decide (2 ≤ i)
        && !(st.eof
          || (decide (image_size ≤ st.total_bytes_written) && ((0 : Nat) == 0))))
      then st.out ++ [0] else st.out) = st.out
    simp [hni]

/-- Processing the two zero header bytes (inner indices 0 and 1): nothing is
written, `eof` and the counters are untouched, and the window moves onto the
header zeroes. -/
theorem chunkGo_hdr (image_size limit : Int) (st : XferState)
    (hlim : 0 ≤ limit) (htbw : st.total_bytes_written < image_size)
    (hlen : st.prev_bytes.length = 4) :
    ((chunkGo image_size (fun _ => false) limit 0 st [0, 0]).1.eof = st.eof ∧
      (chunkGo image_size (fun _ => false) limit 0 st [0, 0]).1.total_bytes_written
        = st.total_bytes_written ∧
      (chunkGo image_size (fun _ => false) limit 0 st [0, 0]).1.out = st.out ∧
      prevB (chunkGo image_size (fun _ => false) limit 0 st [0, 0]).1 = 0 ∧
      (chunkGo image_size (fun _ => false) limit 0 st [0, 0]).1.prev_bytes.length = 4 ∧
      (chunkGo image_size (fun _ => false) limit 0 st [0, 0]).1.start_next_chunk
        = st.start_next_chunk ∧
      (chunkGo image_size (fun _ => false) limit 0 st [0, 0]).1.bytes_remaining
        = st.bytes_remaining ∧
      (chunkGo image_size (fun _ => false) limit 0 st [0, 0]).2 = 2) := by
  rw [chunkGo_cons image_size (fun _ => false) limit 0 st 0 [0] (by omega)]
  have h1 := stepByte_zero_low image_size 0 st (by omega) htbw hlen
  rw [chunkGo_cons image_size (fun _ => false) limit (0 + 1) _ 0 [] (by omega)]
  have h2 := stepByte_zero_low image_size (0 + 1)
    (stepByte image_size false 0 st 0) (by omega)
    (by rw [h1.2.1]; exact htbw) h1.2.2.2.2.1
  have hz : (stepByte image_size ((fun _ => false)
        ((stepByte image_size false 0 st 0).total_bytes_read + 1)) (0 + 1)
        (stepByte image_size false 0 st 0) 0)
      = stepByte image_size false (0 + 1) (stepByte image_size false 0 st 0) 0 := rfl
  refine ⟨?_, ?_, ?_, ?_, ?_, ?_, ?_, by norm_num [chunkGo]⟩
  · show (stepByte image_size false (0 + 1) (stepByte image_size false 0 st 0) 0).eof
        = st.eof
    rw [h2.1, h1.1]
  · show (stepByte image_size false (0 + 1)
        (stepByte image_size false 0 st 0) 0).total_bytes_written
        = st.total_bytes_written
    rw [h2.2.1, h1.2.1]
  · show (stepByte image_size false (0 + 1)
        (stepByte image_size false 0 st 0) 0).out = st.out
    rw [h2.2.2.1, h1.2.2.1]
  · show prevB (stepByte image_size false (0 + 1)
        (stepByte image_size false 0 st 0) 0) = 0
    exact h2.2.2.2.1
  · show (stepByte image_size false (0 + 1)
        (stepByte image_size false 0 st 0) 0).prev_bytes.length = 4
    exact h2.2.2.2.2.1
  · show (stepByte image_size false (0 + 1)
        (stepByte image_size false 0 st 0) 0).start_next_chunk
        = st.start_next_chunk
    rw [h2.2.2.2.2.2.1, h1.2.2.2.2.2.1]
  · show (stepByte image_size false (0 + 1)
        (stepByte image_size false 0 st 0) 0).bytes_remaining = st.bytes_remaining
    rw [h2.2.2.2.2.2.2, h1.2.2.2.2.2.2]

set_option maxHeartbeats 1600000 in
/-- One chunk of a clean transfer that stays strictly before the end marker:
all `ℓ1` requested payload bytes are written and `eof` stays clear. -/
theorem chunkClean_pre (front : List Nat)
    (hfree : ffd9Free (front ++ [0xFF]) = true)
    (c ℓ1 : Nat) (st : XferState) (ℓ : Int)
    (hl : ℓ = (ℓ1 : Int)) (h1 : 1 ≤ ℓ1)
    (hcl : c + ℓ1 + 1 ≤ (front ++ [0xFF, 0xD9]).length)
    (heof : st.eof = false)
    (htbw : st.total_bytes_written = (c : Int))
    (hlen : st.prev_bytes.length = 4) :
    (chunkGo ((front ++ [0xFF, 0xD9]).length : Int) (fun _ => false) ℓ 0 st
        (tpClean (front ++ [0xFF, 0xD9]) (c : Int) ℓ)).1.eof = false ∧
      (chunkGo ((front ++ [0xFF, 0xD9]).length : Int) (fun _ => false) ℓ 0 st
        (tpClean (front ++ [0xFF, 0xD9]) (c : Int) ℓ)).1.total_bytes_written
        = (c : Int) + ℓ ∧
      (chunkGo ((front ++ [0xFF, 0xD9]).length : Int) (fun _ => false) ℓ 0 st
        (tpClean (front ++ [0xFF, 0xD9]) (c : Int) ℓ)).1.start_next_chunk
        = st.start_next_chunk ∧
      (chunkGo ((front ++ [0xFF, 0xD9]).length : Int) (fun _ => false) ℓ 0 st
        (tpClean (front ++ [0xFF, 0xD9]) (c : Int) ℓ)).1.bytes_remaining
        = st.bytes_remaining ∧
      (chunkGo ((front ++ [0xFF, 0xD9]).length : Int) (fun _ => false) ℓ 0 st
        (tpClean (front ++ [0xFF, 0xD9]) (c : Int) ℓ)).1.prev_bytes.length = 4 ∧
      (chunkGo ((front ++ [0xFF, 0xD9]).length : Int) (fun _ => false) ℓ 0 st
        (tpClean (front ++ [0xFF, 0xD9]) (c : Int) ℓ)).2 = ℓ + 2 := by
  have hNlen : (front ++ [0xFF, 0xD9]).length = front.length + 2 := by simp
  have hseg : tpClean (front ++ [0xFF, 0xD9]) (c : Int) ℓ
      = [0, 0] ++ ((front ++ [0xFF, 0xD9]).drop c).take ℓ1 := by
    unfold tpClean
    rw [hl]
    simp only [Int.toNat_natCast]
    have hz : ℓ1 - ((front ++ [0xFF, 0xD9]).length - c) = 0 := by omega
    rw [hz]
    simp
  rw [hseg]
  have hsegfree : ffd9Free (((front ++ [0xFF, 0xD9]).drop c).take ℓ1) = true := by
    have hP : front ++ [0xFF, 0xD9] = (front ++ [0xFF]) ++ [0xD9] := by simp
    rw [hP]
    have hdrop : ((front ++ [0xFF]) ++ [0xD9]).drop c
        = (front ++ [0xFF]).drop c ++ [0xD9] := by
      rw [List.drop_append_eq_append_drop]
      have : c - (front ++ [0xFF]).length = 0 := by
        simp only [List.length_append, List.length_cons, List.length_nil] at hcl ⊢
        omega
      rw [this]
      simp
    rw [hdrop]
    have htake : ((front ++ [0xFF]).drop c ++ [0xD9]).take ℓ1
        = ((front ++ [0xFF]).drop c).take ℓ1 := by
      rw [List.take_append_eq_append_take]
      have : ℓ1 - ((front ++ [0xFF]).drop c).length = 0 := by
        simp only [List.length_drop, List.length_append, List.length_cons,
          List.length_nil] at hcl ⊢
        omega
      rw [this]
      simp
    rw [htake]
    exact ffd9Free_take _ _ (ffd9Free_drop c _ hfree)
  have hseglen : (((front ++ [0xFF, 0xD9]).drop c).take ℓ1).length = ℓ1 := by
    rw [List.length_take, List.length_drop]
    omega
  have happ := chunkGo_append ((front ++ [0xFF, 0xD9]).length : Int)
    (fun _ => false) ℓ [0, 0] (((front ++ [0xFF, 0xD9]).drop c).take ℓ1) 0 st
    (by simp only [List.length_cons, List.length_nil]; push_cast; omega)
  have hlen02 : (0 : Int) + (([0, 0] : List Nat).length : Int) = 2 := by
    simp
  rw [hlen02] at happ
  rw [happ.1]
  have hhdr := chunkGo_hdr ((front ++ [0xFF, 0xD9]).length : Int) ℓ st
    (by omega) (by rw [htbw]; push_cast; omega) hlen
  set st1 := (chunkGo ((front ++ [0xFF, 0xD9]).length : Int) (fun _ => false)
    ℓ 0 st [0, 0]).1 with hst1
  have hsegres := chunkGo_seg ((front ++ [0xFF, 0xD9]).length : Int) ℓ
    (((front ++ [0xFF, 0xD9]).drop c).take ℓ1)
    2 st1
    (by omega) (by rw [hseglen]; push_cast; omega)
    (hhdr.1.trans heof)
    (by rw [hhdr.2.1, htbw, hseglen]; push_cast; omega)
    (by rw [hhdr.2.2.2.1]
        exact ffd9Free_cons_ne 0 _ (by decide) hsegfree)
    hhdr.2.2.2.2.1
  refine ⟨hsegres.1, ?_, ?_, ?_, hsegres.2.2.2.2.2.2.1, ?_⟩
  · rw [hsegres.2.1, hhdr.2.1, htbw, hseglen, hl]
  · rw [hsegres.2.2.2.1, hhdr.2.2.2.2.2.1]
  · rw [hsegres.2.2.2.2.1, hhdr.2.2.2.2.2.2.1]
  · rw [hsegres.2.2.2.2.2.2.2, hseglen, hl]
    push_cast
    ring

set_option maxHeartbeats 1600000 in
/-- One chunk of a clean transfer that reaches past the end of the payload
while the `FF D9` pair sits wholly inside the chunk: the remaining payload is
written, the end marker sets `eof`, and the padding zeroes change nothing. -/
theorem chunkClean_marker (front : List Nat)
    (hfree : ffd9Free (front ++ [0xFF]) = true)
    (c ℓ1 : Nat) (st : XferState) (ℓ : Int)
    (hl : ℓ = (ℓ1 : Int))
    (hc2 : c + 2 ≤ (front ++ [0xFF, 0xD9]).length)
    (hcl : (front ++ [0xFF, 0xD9]).length ≤ c + ℓ1)
    (heof : st.eof = false)
    (htbw : st.total_bytes_written = (c : Int))
    (hlen : st.prev_bytes.length = 4) :
    (chunkGo ((front ++ [0xFF, 0xD9]).length : Int) (fun _ => false) ℓ 0 st
        (tpClean (front ++ [0xFF, 0xD9]) (c : Int) ℓ)).1.eof = true ∧
      (chunkGo ((front ++ [0xFF, 0xD9]).length : Int) (fun _ => false) ℓ 0 st
        (tpClean (front ++ [0xFF, 0xD9]) (c : Int) ℓ)).1.total_bytes_written
        = ((front ++ [0xFF, 0xD9]).length : Int) ∧
      (chunkGo ((front ++ [0xFF, 0xD9]).length : Int) (fun _ => false) ℓ 0 st
        (tpClean (front ++ [0xFF, 0xD9]) (c : Int) ℓ)).1.start_next_chunk
        = st.start_next_chunk ∧
      (chunkGo ((front ++ [0xFF, 0xD9]).length : Int) (fun _ => false) ℓ 0 st
        (tpClean (front ++ [0xFF, 0xD9]) (c : Int) ℓ)).1.bytes_remaining
        = st.bytes_remaining ∧
      (chunkGo ((front ++ [0xFF, 0xD9]).length : Int) (fun _ => false) ℓ 0 st
        (tpClean (front ++ [0xFF, 0xD9]) (c : Int) ℓ)).2 = ℓ + 2 := by
  have hNlen : (front ++ [0xFF, 0xD9]).length = front.length + 2 := by simp
  have h1 : 1 ≤ ℓ1 := by omega
  have hdrop : (front ++ [0xFF, 0xD9]).drop c
      = (front.drop c ++ [0xFF]) ++ [0xD9] := by
    rw [List.drop_append_eq_append_drop]
    have : c - front.length = 0 := by omega
    rw [this]
    simp
  have hseg : tpClean (front ++ [0xFF, 0xD9]) (c : Int) ℓ
      = [0, 0] ++ (((front.drop c ++ [0xFF]) ++ ([0xD9]
          ++ List.replicate (ℓ1 - ((front ++ [0xFF, 0xD9]).length - c)) 0))) := by
    unfold tpClean
    rw [hl]
    simp only [Int.toNat_natCast]
    rw [List.take_of_length_le (by rw [List.length_drop]; omega), hdrop]
    simp [List.append_assoc]
  rw [hseg]
  have happ := chunkGo_append ((front ++ [0xFF, 0xD9]).length : Int)
    (fun _ => false) ℓ [0, 0]
    ((front.drop c ++ [0xFF]) ++ ([0xD9]
      ++ List.replicate (ℓ1 - ((front ++ [0xFF, 0xD9]).length - c)) 0)) 0 st
    (by simp only [List.length_cons, List.length_nil]; push_cast; omega)
  have hlen02 : (0 : Int) + (([0, 0] : List Nat).length : Int) = 2 := by simp
  rw [hlen02] at happ
  rw [happ.1]
  have hhdr := chunkGo_hdr ((front ++ [0xFF, 0xD9]).length : Int) ℓ st
    (by omega) (by rw [htbw]; push_cast; omega) hlen
  set st1 := (chunkGo ((front ++ [0xFF, 0xD9]).length : Int) (fun _ => false)
    ℓ 0 st [0, 0]).1 with hst1
  have hscl : (front.drop c ++ [0xFF]).length = front.length + 1 - c := by
    rw [List.length_append, List.length_drop]
    simp only [List.length_cons, List.length_nil]
    omega
  have happ2 := chunkGo_append ((front ++ [0xFF, 0xD9]).length : Int)
    (fun _ => false) ℓ (front.drop c ++ [0xFF])
    ([0xD9] ++ List.replicate (ℓ1 - ((front ++ [0xFF, 0xD9]).length - c)) 0) 2 st1
    (by rw [hscl]; push_cast; omega)
  rw [happ2.1]
  have hfreecl : ffd9Free (front.drop c ++ [0xFF]) = true := by
    have : front.drop c ++ [0xFF] = (front ++ [0xFF]).drop c := by
      rw [List.drop_append_eq_append_drop]
      have : c - front.length = 0 := by omega
      rw [this]
      simp
    rw [this]
    exact ffd9Free_drop c _ hfree
  have hsegres := chunkGo_seg ((front ++ [0xFF, 0xD9]).length : Int) ℓ
    (front.drop c ++ [0xFF]) 2 st1
    (by omega) (by rw [hscl]; push_cast; omega)
    (hhdr.1.trans heof)
    (by rw [hhdr.2.1, htbw, hscl]; push_cast; omega)
    (by rw [hhdr.2.2.2.1]
        exact ffd9Free_cons_ne 0 _ (by decide) hfreecl)
    hhdr.2.2.2.2.1
  set st2 := (chunkGo ((front ++ [0xFF, 0xD9]).length : Int) (fun _ => false)
    ℓ 2 st1 (front.drop c ++ [0xFF])).1 with hst2
  have hi2 : 2 + ((front.drop c ++ [0xFF]).length : Int)
      = ((front.length + 1 - c : Nat) : Int) + 2 := by
    rw [hscl]
    push_cast
    ring
  rw [hi2]
  have happ3 := chunkGo_append ((front ++ [0xFF, 0xD9]).length : Int)
    (fun _ => false) ℓ [0xD9]
    (List.replicate (ℓ1 - ((front ++ [0xFF, 0xD9]).length - c)) 0)
    (((front.length + 1 - c : Nat) : Int) + 2) st2
    (by simp only [List.length_cons, List.length_nil]; push_cast; omega)
  have hlen1 : ((((front.length + 1 - c : Nat) : Int) + 2)
      + (([0xD9] : List Nat).length : Int))
      = (((front.length + 1 - c : Nat) : Int) + 3) := by
    simp only [List.length_cons, List.length_nil]
    push_cast
    ring
  rw [hlen1] at happ3
  rw [happ3.1]
  have hd9res := stepByte_d9 ((front ++ [0xFF, 0xD9]).length : Int)
    (((front.length + 1 - c : Nat) : Int) + 2) st2
    (by push_cast; omega) hsegres.1 hsegres.2.2.2.2.2.2.1
  have hd9fst : (chunkGo ((front ++ [0xFF, 0xD9]).length : Int) (fun _ => false)
      ℓ (((front.length + 1 - c : Nat) : Int) + 2) st2 [0xD9]).1
      = stepByte ((front ++ [0xFF, 0xD9]).length : Int) false
          (((front.length + 1 - c : Nat) : Int) + 2) st2 0xD9 := by
    rw [chunkGo_cons _ _ _ _ _ _ _ (by push_cast; omega)]
    rfl
  rw [hd9fst]
  have hprevff : prevB st2 = 0xFF := by
    rw [hsegres.2.2.2.2.2.1, hhdr.2.2.2.1, List.getLastD_concat]
  have heof3 : (stepByte ((front ++ [0xFF, 0xD9]).length : Int) false
      (((front.length + 1 - c : Nat) : Int) + 2) st2 0xD9).eof = true := by
    rw [hd9res.1, hprevff]
    simp
  have htbw3 : (stepByte ((front ++ [0xFF, 0xD9]).length : Int) false
      (((front.length + 1 - c : Nat) : Int) + 2) st2 0xD9).total_bytes_written
      = ((front ++ [0xFF, 0xD9]).length : Int) := by
    rw [hd9res.2.1, hsegres.2.1, hhdr.2.1, htbw, hscl, hNlen]
    push_cast
    omega
  set st3 := stepByte ((front ++ [0xFF, 0xD9]).length : Int) false
    (((front.length + 1 - c : Nat) : Int) + 2) st2 0xD9 with hst3
  have hzres := chunkGo_zeros ((front ++ [0xFF, 0xD9]).length : Int) ℓ
    (ℓ1 - ((front ++ [0xFF, 0xD9]).length - c))
    ((((front.length + 1 - c : Nat) : Int) + 3)) st3
    (by push_cast; omega)
    (by rw [htbw3]) hd9res.2.2.2.1
  refine ⟨?_, ?_, ?_, ?_, ?_⟩
  · rw [hzres.1]
    split_ifs with hz
    · exact heof3
    · rfl
  · rw [hzres.2.1, htbw3]
  · rw [hzres.2.2.2.1, hd9res.2.2.2.2.1, hsegres.2.2.2.1, hhdr.2.2.2.2.2.1]
  · rw [hzres.2.2.2.2.1, hd9res.2.2.2.2.2, hsegres.2.2.2.2.1, hhdr.2.2.2.2.2.2.1]
  · rw [hzres.2.2.2.2.2.2]
    push_cast
    omega

set_option maxHeartbeats 1600000 in
/-- One chunk of a clean transfer that starts exactly at the final `0xD9`
byte (the marker pair was split by the previous chunk boundary): the `0xD9`
is written without firing the marker test (its window predecessor is a zero
header byte), and the first padding zero — present only when more than one
byte was requested — sets `eof` through the declared-length heuristic. -/
theorem chunkClean_split (front : List Nat)
    (c ℓ1 : Nat) (st : XferState) (ℓ : Int)
    (hl : ℓ = (ℓ1 : Int)) (h1 : 1 ≤ ℓ1)
    (hc : c = front.length + 1)
    (heof : st.eof = false)
    (htbw : st.total_bytes_written = (c : Int))
    (hlen : st.prev_bytes.length = 4) :
    (chunkGo ((front ++ [0xFF, 0xD9]).length : Int) (fun _ => false) ℓ 0 st
        (tpClean (front ++ [0xFF, 0xD9]) (c : Int) ℓ)).1.eof
        = (if ℓ1 = 1 then false else true) ∧
      (chunkGo ((front ++ [0xFF, 0xD9]).length : Int) (fun _ => false) ℓ 0 st
        (tpClean (front ++ [0xFF, 0xD9]) (c : Int) ℓ)).1.total_bytes_written
        = ((front ++ [0xFF, 0xD9]).length : Int) ∧
      (chunkGo ((front ++ [0xFF, 0xD9]).length : Int) (fun _ => false) ℓ 0 st
        (tpClean (front ++ [0xFF, 0xD9]) (c : Int) ℓ)).1.start_next_chunk
        = st.start_next_chunk ∧
      (chunkGo ((front ++ [0xFF, 0xD9]).length : Int) (fun _ => false) ℓ 0 st
        (tpClean (front ++ [0xFF, 0xD9]) (c : Int) ℓ)).1.bytes_remaining
        = st.bytes_remaining ∧
      (chunkGo ((front ++ [0xFF, 0xD9]).length : Int) (fun _ => false) ℓ 0 st
        (tpClean (front ++ [0xFF, 0xD9]) (c : Int) ℓ)).1.prev_bytes.length = 4 ∧
      (chunkGo ((front ++ [0xFF, 0xD9]).length : Int) (fun _ => false) ℓ 0 st
        (tpClean (front ++ [0xFF, 0xD9]) (c : Int) ℓ)).2 = ℓ + 2 := by
  have hNlen : (front ++ [0xFF, 0xD9]).length = front.length + 2 := by simp
  have hdrop : (front ++ [0xFF, 0xD9]).drop c = [0xD9] := by
    have hP : front ++ [0xFF, 0xD9] = (front ++ [0xFF]) ++ [0xD9] := by simp
    rw [hP, List.drop_append_eq_append_drop]
    have hc1 : c - (front ++ [0xFF]).length = 0 := by
      simp only [List.length_append, List.length_cons, List.length_nil]
      omega
    have hc2 : (front ++ [0xFF]).drop c = [] := by
      apply List.drop_eq_nil_of_le
      simp only [List.length_append, List.length_cons, List.length_nil]
      omega
    rw [hc1, hc2]
    simp
  have hseg : tpClean (front ++ [0xFF, 0xD9]) (c : Int) ℓ
      = [0, 0] ++ ([0xD9] ++ List.replicate (ℓ1 - 1) 0) := by
    unfold tpClean
    rw [hl]
    simp only [Int.toNat_natCast]
    rw [hdrop, List.take_of_length_le (by simp [h1])]
    have hz : ℓ1 - ((front ++ [0xFF, 0xD9]).length - c) = ℓ1 - 1 := by omega
    rw [hz]
  rw [hseg]
  have happ := chunkGo_append ((front ++ [0xFF, 0xD9]).length : Int)
    (fun _ => false) ℓ [0, 0] ([0xD9] ++ List.replicate (ℓ1 - 1) 0) 0 st
    (by simp only [List.length_cons, List.length_nil]; push_cast; omega)
  have hlen02 : (0 : Int) + (([0, 0] : List Nat).length : Int) = 2 := by simp
  rw [hlen02] at happ
  rw [happ.1]
  have hhdr := chunkGo_hdr ((front ++ [0xFF, 0xD9]).length : Int) ℓ st
    (by omega) (by rw [htbw]; push_cast; omega) hlen
  set st1 := (chunkGo ((front ++ [0xFF, 0xD9]).length : Int) (fun _ => false)
    ℓ 0 st [0, 0]).1 with hst1
  have happ2 := chunkGo_append ((front ++ [0xFF, 0xD9]).length : Int)
    (fun _ => false) ℓ [0xD9] (List.replicate (ℓ1 - 1) 0) 2 st1
    (by simp only [List.length_cons, List.length_nil]; push_cast; omega)
  have hlen1 : (2 : Int) + (([0xD9] : List Nat).length : Int) = 3 := by simp
  rw [hlen1] at happ2
  rw [happ2.1]
  have hd9res := stepByte_d9 ((front ++ [0xFF, 0xD9]).length : Int) 2 st1
    (by omega) (hhdr.1.trans heof) hhdr.2.2.2.2.1
  have hd9fst : (chunkGo ((front ++ [0xFF, 0xD9]).length : Int) (fun _ => false)
      ℓ 2 st1 [0xD9]).1
      = stepByte ((front ++ [0xFF, 0xD9]).length : Int) false 2 st1 0xD9 := by
    rw [chunkGo_cons _ _ _ _ _ _ _ (by omega)]
    rfl
  rw [hd9fst]
  set st3 := stepByte ((front ++ [0xFF, 0xD9]).length : Int) false 2 st1 0xD9
    with hst3
  have heof3 : st3.eof = false := by
    rw [hst3, hd9res.1, hhdr.2.2.2.1]
    simp
  have htbw3 : st3.total_bytes_written = ((front ++ [0xFF, 0xD9]).length : Int) := by
    rw [hst3, hd9res.2.1, hhdr.2.1, htbw, hNlen, hc]
    push_cast
    ring
  have hzres := chunkGo_zeros ((front ++ [0xFF, 0xD9]).length : Int) ℓ
    (ℓ1 - 1) 3 st3 (by push_cast; omega) (by rw [htbw3]) hd9res.2.2.2.1
  refine ⟨?_, ?_, ?_, ?_, ?_, ?_⟩
  · rw [hzres.1]
    split_ifs with hz1 hz2 hz2
    · exact heof3
    · omega
    · omega
    · rfl
  · rw [hzres.2.1, htbw3]
  · rw [hzres.2.2.2.1, hd9res.2.2.2.2.1, hhdr.2.2.2.2.2.1]
  · rw [hzres.2.2.2.2.1, hd9res.2.2.2.2.2, hhdr.2.2.2.2.2.2.1]
  · exact hzres.2.2.2.2.2.1
  · rw [hzres.2.2.2.2.2.2]
    push_cast
    omega

/-- A chunk requested entirely past the payload: the transport answers only
zeroes, the first of which (a header byte) trips the declared-length
heuristic; nothing further is written. -/
theorem chunkClean_past (front : List Nat)
    (ℓ1 : Nat) (st : XferState) (ℓ : Int)
    (hl : ℓ = (ℓ1 : Int)) (h1 : 1 ≤ ℓ1)
    (htbw : st.total_bytes_written = ((front ++ [0xFF, 0xD9]).length : Int))
    (hlen : st.prev_bytes.length = 4) :
    (chunkGo ((front ++ [0xFF, 0xD9]).length : Int) (fun _ => false) ℓ 0 st
        (tpClean (front ++ [0xFF, 0xD9])
          (((front ++ [0xFF, 0xD9]).length : Int)) ℓ)).1.eof = true ∧
      (chunkGo ((front ++ [0xFF, 0xD9]).length : Int) (fun _ => false) ℓ 0 st
        (tpClean (front ++ [0xFF, 0xD9])
          (((front ++ [0xFF, 0xD9]).length : Int)) ℓ)).1.total_bytes_written
        = ((front ++ [0xFF, 0xD9]).length : Int) ∧
      (chunkGo ((front ++ [0xFF, 0xD9]).length : Int) (fun _ => false) ℓ 0 st
        (tpClean (front ++ [0xFF, 0xD9])
          (((front ++ [0xFF, 0xD9]).length : Int)) ℓ)).2 = ℓ + 2 := by
  have hall : tpClean (front ++ [0xFF, 0xD9])
      (((front ++ [0xFF, 0xD9]).length : Int)) ℓ
      = List.replicate (ℓ1 + 2) 0 := by
    unfold tpClean
    rw [hl]
    simp only [Int.toNat_natCast]
    rw [List.drop_eq_nil_of_le (le_refl _)]
    have hz : ℓ1 - ((front ++ [0xFF, 0xD9]).length
        - (front ++ [0xFF, 0xD9]).length) = ℓ1 := by omega
    rw [hz]
    simp [List.replicate_succ]
  rw [hall]
  have hzres := chunkGo_zeros ((front ++ [0xFF, 0xD9]).length : Int) ℓ
    (ℓ1 + 2) 0 st (by push_cast; omega) (by rw [htbw]) hlen
  refine ⟨?_, ?_, ?_⟩
  · rw [hzres.1]
    simp
  · rw [hzres.2.1, htbw]
  · rw [hzres.2.2.2.2.2.2, hl]
    push_cast
    ring

/-- Tail helper: when `eof` is set at the end of a chunk, the outer loop of
`transferImage` breaks immediately. -/
theorem runXfer_tail_stop (tp : Int → Int → List Nat) (live : Nat → Bool)
    (tmo : Int → Bool) (image_size cs : Int) (n : Nat) (st2 : XferState)
    (h : st2.eof = true) :
    ((if st2.eof then st2
        else runXfer tp live tmo image_size cs n st2) : XferState).eof = true ∧
      ((if st2.eof then st2
          else runXfer tp live tmo image_size cs n st2) : XferState).total_bytes_written
        = st2.total_bytes_written := by
  rw [if_pos h]
  exact ⟨h, rfl⟩

/-- Tail helper: when `eof` is still clear at the end of a chunk, the outer
loop of `transferImage` continues. -/
theorem runXfer_tail_cont (tp : Int → Int → List Nat) (live : Nat → Bool)
    (tmo : Int → Bool) (image_size cs : Int) (n : Nat) (st2 : XferState)
    (h : st2.eof = false)
    (hres : (runXfer tp live tmo image_size cs n st2).eof = true ∧
      (runXfer tp live tmo image_size cs n st2).total_bytes_written = image_size) :
    ((if st2.eof then st2
        else runXfer tp live tmo image_size cs n st2) : XferState).eof = true ∧
      ((if st2.eof then st2
          else runXfer tp live tmo image_size cs n st2) : XferState).total_bytes_written
        = image_size := by
  rw [if_neg (by simp [h])]
  exact hres

/-- Finishing a clean transfer from the state in which the whole payload has
been written but `eof` is still clear (the marker pair was split and the
chunk ended right after the `0xD9`): the next chunk's first zero trips the
declared-length heuristic and the session ends. -/
theorem runClean_B (front : List Nat) (cs : Int) (hcs : 1 ≤ cs) :
    ∀ (fuel : Nat) (st : XferState), 1 ≤ fuel →
      st.eof = false →
      st.total_bytes_written = ((front ++ [0xFF, 0xD9]).length : Int) →
      st.start_next_chunk = ((front ++ [0xFF, 0xD9]).length : Int) →
      st.prev_bytes.length = 4 →
      (runXfer (tpClean (front ++ [0xFF, 0xD9])) (fun _ => true) (fun _ => false)
          ((front ++ [0xFF, 0xD9]).length : Int) cs fuel st).eof = true ∧
        (runXfer (tpClean (front ++ [0xFF, 0xD9])) (fun _ => true) (fun _ => false)
          ((front ++ [0xFF, 0xD9]).length : Int) cs fuel st).total_bytes_written
          = ((front ++ [0xFF, 0xD9]).length : Int) := by
  intro fuel st hfuel heof htbw hsnc hlen
  cases fuel with
  | zero => omega
  | succ n =>
    rw [runXfer]
    have hcond : st.eof = false ∧ ((fun _ : Nat => true) (n + 1) = true) :=
      ⟨heof, rfl⟩
    rw [if_pos hcond, hsnc]
    have hdel : ¬ (tpClean (front ++ [0xFF, 0xD9])
        ((front ++ [0xFF, 0xD9]).length : Int)
        (min cs (max st.bytes_remaining 1)) = []) := by
      unfold tpClean
      simp
    rw [if_neg hdel]
    have hL1 : 1 ≤ min cs (max st.bytes_remaining 1) := by
      have : 1 ≤ max st.bytes_remaining 1 := le_max_right _ _
      omega
    have hl : min cs (max st.bytes_remaining 1)
        = (((min cs (max st.bytes_remaining 1)).toNat : Nat) : Int) := by
      omega
    have h11 : 1 ≤ (min cs (max st.bytes_remaining 1)).toNat := by omega
    have hpast := chunkClean_past front (min cs (max st.bytes_remaining 1)).toNat
      st (min cs (max st.bytes_remaining 1)) hl h11 htbw hlen
    refine ⟨(runXfer_tail_stop _ _ _ _ _ _ _ ?_).1,
      ((runXfer_tail_stop _ _ _ _ _ _ _ ?_).2).trans ?_⟩
    · exact hpast.1
    · exact hpast.1
    · exact hpast.2.1

/-- One unfolding of `runXfer` at positive fuel when the session is live,
`eof` is clear and the transport delivers a non-empty response, phrased with
the chunk-processing result abstracted as `pp`. -/
theorem runXfer_step_eq (tp : Int → Int → List Nat) (live : Nat → Bool)
    (tmo : Int → Bool) (image_size cs : Int) (n : Nat) (st : XferState)
    (pp : XferState × Int)
    (hcond : st.eof = false ∧ live (n + 1) = true)
    (hdel : ¬ tp st.start_next_chunk (min cs (max st.bytes_remaining 1)) = [])
    (hp : chunkGo image_size tmo (min cs (max st.bytes_remaining 1)) 0 st
        (tp st.start_next_chunk (min cs (max st.bytes_remaining 1))) = pp) :
    runXfer tp live tmo image_size cs (n + 1) st =
      (if ({ pp.1 with
          bytes_remaining := pp.1.bytes_remaining
            - min pp.2 (min cs (max st.bytes_remaining 1)),
          start_next_chunk := pp.1.start_next_chunk
            + min pp.2 (min cs (max st.bytes_remaining 1)),
          chunk_number := pp.1.chunk_number + 1 } : XferState).eof = true
        then { pp.1 with
          bytes_remaining := pp.1.bytes_remaining
            - min pp.2 (min cs (max st.bytes_remaining 1)),
          start_next_chunk := pp.1.start_next_chunk
            + min pp.2 (min cs (max st.bytes_remaining 1)),
          chunk_number := pp.1.chunk_number + 1 }
        else runXfer tp live tmo image_size cs n { pp.1 with
          bytes_remaining := pp.1.bytes_remaining
            - min pp.2 (min cs (max st.bytes_remaining 1)),
          start_next_chunk := pp.1.start_next_chunk
            + min pp.2 (min cs (max st.bytes_remaining 1)),
          chunk_number := pp.1.chunk_number + 1 }) := by
  subst hp
  rw [runXfer]
  rw [if_pos hcond]
  rw [if_neg hdel]

set_option maxHeartbeats 1600000 in
/-- Main induction for the amended claim C3: from any point strictly inside
the payload, a clean transfer writes the rest of the payload and terminates
with `eof` set by the end marker (or, when a chunk boundary splits the marker
pair, by the declared-length zero heuristic). -/
theorem runClean_A (front : List Nat) (cs : Int) (hcs : 1 ≤ cs)
    (hfree : ffd9Free (front ++ [0xFF]) = true) :
    ∀ (fuel : Nat) (c : Nat) (st : XferState),
      c + 1 ≤ (front ++ [0xFF, 0xD9]).length →
      st.eof = false →
      st.total_bytes_written = (c : Int) →
      st.start_next_chunk = (c : Int) →
      st.bytes_remaining
        = ((front ++ [0xFF, 0xD9]).length : Int) + 14 - (c : Int) →
      st.prev_bytes.length = 4 →
      (front ++ [0xFF, 0xD9]).length - c + 1 ≤ fuel →
      (runXfer (tpClean (front ++ [0xFF, 0xD9])) (fun _ => true) (fun _ => false)
          ((front ++ [0xFF, 0xD9]).length : Int) cs fuel st).eof = true ∧
        (runXfer (tpClean (front ++ [0xFF, 0xD9])) (fun _ => true) (fun _ => false)
          ((front ++ [0xFF, 0xD9]).length : Int) cs fuel st).total_bytes_written
          = ((front ++ [0xFF, 0xD9]).length : Int) := by
  intro fuel
  induction fuel with
  | zero =>
    intro c st hc _ _ _ _ _ hfuel
    omega
  | succ n ih =>
    intro c st hc heof htbw hsnc hrem hlen hfuel
    have hNlen : (front ++ [0xFF, 0xD9]).length = front.length + 2 := by simp
    have hdel : ¬ (tpClean (front ++ [0xFF, 0xD9]) st.start_next_chunk
        (min cs (max st.bytes_remaining 1)) = []) := by
      unfold tpClean
      simp
    have hstep := runXfer_step_eq (tpClean (front ++ [0xFF, 0xD9]))
      (fun _ => true) (fun _ => false) ((front ++ [0xFF, 0xD9]).length : Int)
      cs n st _ ⟨heof, rfl⟩ hdel rfl
    rw [hstep, hsnc]
    set q := chunkGo ((front ++ [0xFF, 0xD9]).length : Int) (fun _ => false)
      (min cs (max st.bytes_remaining 1)) 0 st
      (tpClean (front ++ [0xFF, 0xD9]) ((c : Nat) : Int)
        (min cs (max st.bytes_remaining 1))) with hq
    have hL1 : 1 ≤ min cs (max st.bytes_remaining 1) := by
      have : 1 ≤ max st.bytes_remaining 1 := le_max_right _ _
      omega
    have hl : min cs (max st.bytes_remaining 1)
        = (((min cs (max st.bytes_remaining 1)).toNat : Nat) : Int) := by
      omega
    have h11 : 1 ≤ (min cs (max st.bytes_remaining 1)).toNat := by omega
    have hlub : ((min cs (max st.bytes_remaining 1)).toNat : Int)
        ≤ ((front ++ [0xFF, 0xD9]).length : Int) + 14 - (c : Int) := by
      have h1 : min cs (max st.bytes_remaining 1) ≤ max st.bytes_remaining 1 :=
        min_le_right _ _
      have h2 : max st.bytes_remaining 1
          ≤ max (((front ++ [0xFF, 0xD9]).length : Int) + 14 - (c : Int)) 1 := by
        rw [hrem]
      have h3 : (1 : Int)
          ≤ ((front ++ [0xFF, 0xD9]).length : Int) + 14 - (c : Int) := by
        push_cast
        omega
      omega
    by_cases hcase1 : c + (min cs (max st.bytes_remaining 1)).toNat + 1
        ≤ (front ++ [0xFF, 0xD9]).length
    · have hp1 := chunkClean_pre front hfree c
        (min cs (max st.bytes_remaining 1)).toNat st
        (min cs (max st.bytes_remaining 1)) hl h11 hcase1 heof htbw hlen
      rw [← hq] at hp1
      refine runXfer_tail_cont _ _ _ _ _ _ _ ?_ ?_
      · exact hp1.1
      refine ih (c + (min cs (max st.bytes_remaining 1)).toNat) _ ?_ ?_ ?_
        ?_ ?_ ?_ ?_
      · exact hcase1
      · exact hp1.1
      · exact hp1.2.1.trans (by omega)
      · show q.1.start_next_chunk
            + min q.2 (min cs (max st.bytes_remaining 1))
            = ((c + (min cs (max st.bytes_remaining 1)).toNat : Nat) : Int)
        rw [hp1.2.2.1, hp1.2.2.2.2.2, hsnc]
        push_cast
        omega
      · show q.1.bytes_remaining
            - min q.2 (min cs (max st.bytes_remaining 1))
            = ((front ++ [0xFF, 0xD9]).length : Int) + 14
              - ((c + (min cs (max st.bytes_remaining 1)).toNat : Nat) : Int)
        rw [hp1.2.2.2.1, hp1.2.2.2.2.2, hrem]
        push_cast
        omega
      · exact hp1.2.2.2.2.1
      · omega
    · by_cases hcase2 : c + 2 ≤ (front ++ [0xFF, 0xD9]).length
      · have hcl : (front ++ [0xFF, 0xD9]).length
            ≤ c + (min cs (max st.bytes_remaining 1)).toNat := by omega
        have hmk := chunkClean_marker front hfree c
          (min cs (max st.bytes_remaining 1)).toNat st
          (min cs (max st.bytes_remaining 1)) hl hcase2 hcl heof htbw hlen
        rw [← hq] at hmk
        refine ⟨(runXfer_tail_stop _ _ _ _ _ _ _ ?_).1,
          ((runXfer_tail_stop _ _ _ _ _ _ _ ?_).2).trans ?_⟩
        · exact hmk.1
        · exact hmk.1
        · exact hmk.2.1
      · have hc3 : c = front.length + 1 := by omega
        have hsp := chunkClean_split front c
          (min cs (max st.bytes_remaining 1)).toNat st
          (min cs (max st.bytes_remaining 1)) hl h11 hc3 heof htbw hlen
        rw [← hq] at hsp
        by_cases hone : (min cs (max st.bytes_remaining 1)).toNat = 1
        · refine runXfer_tail_cont _ _ _ _ _ _ _ ?_ ?_
          · exact hsp.1.trans (by simp [hone])
          refine runClean_B front cs hcs n _ ?_ ?_ ?_ ?_ ?_
          · omega
          · exact hsp.1.trans (by simp [hone])
          · exact hsp.2.1
          · show q.1.start_next_chunk
                + min q.2 (min cs (max st.bytes_remaining 1))
                = ((front ++ [0xFF, 0xD9]).length : Int)
            rw [hsp.2.2.1, hsp.2.2.2.2.2, hsnc]
            push_cast
            omega
          · exact hsp.2.2.2.2.1
        · refine ⟨(runXfer_tail_stop _ _ _ _ _ _ _ ?_).1,
            ((runXfer_tail_stop _ _ _ _ _ _ _ ?_).2).trans ?_⟩
          · exact hsp.1.trans (by simp [hone])
          · exact hsp.1.trans (by simp [hone])
          · exact hsp.2.1


/-- Claim C3 (amended): for a transport that delivers, per chunk request, the
2 header bytes followed by the requested slice of a payload of exactly
`image_size` bytes ending with the `0xFF 0xD9` end marker — and, as the
interior-marker counterexample forces, containing no earlier `0xFF 0xD9`
adjacent pair — `transferImage` sets `end_of_frame`, its
`total_bytes_written` equals `image_size`, and it returns `image_size`,
terminating after finitely many chunk requests with the 120-second deadline
never firing. -/
theorem claim_C3_clean_transfer (front : List Nat) (cs : Int) (fuel : Nat)
    (hcs : 1 ≤ cs)
    (hfree : ffd9Free (front ++ [0xFF]) = true)
    (hsize : ((front ++ [0xFF, 0xD9]).length : Int) < 2147483648)
    (hfuel : (front ++ [0xFF, 0xD9]).length + 1 ≤ fuel) :
    (runXfer (tpClean (front ++ [0xFF, 0xD9])) (fun _ => true) (fun _ => false)
        ((front ++ [0xFF, 0xD9]).length : Int) cs fuel
        (initXfer ((front ++ [0xFF, 0xD9]).length : Int))).eof = true ∧
      (runXfer (tpClean (front ++ [0xFF, 0xD9])) (fun _ => true)
        (fun _ => false) ((front ++ [0xFF, 0xD9]).length : Int) cs fuel
        (initXfer ((front ++ [0xFF, 0xD9]).length : Int))).total_bytes_written
        = ((front ++ [0xFF, 0xD9]).length : Int) ∧
      transferImageRet (tpClean (front ++ [0xFF, 0xD9])) (fun _ => true)
        (fun _ => false) ((front ++ [0xFF, 0xD9]).length : Int) cs fuel
        = ((front ++ [0xFF, 0xD9]).length : Int) := by
  have h := runClean_A front cs hcs hfree fuel 0
    (initXfer ((front ++ [0xFF, 0xD9]).length : Int))
    (by simp) rfl (by norm_num [initXfer]) (by norm_num [initXfer])
    (by simp only [initXfer]; push_cast; ring)
    rfl (by omega)
  refine ⟨h.1, h.2, ?_⟩
  show toUInt32I _ = _
  rw [h.2]
  unfold toUInt32I
  omega

/-- Witness for the amended claim C3 at the concrete payload
`[1, 2, 3, 0xFF, 0xD9]` with `chunk_size = 2`. -/
theorem claim_C3_clean_transfer_witness :
    (1 : Int) ≤ 2 ∧ ffd9Free ([1, 2, 3] ++ [0xFF]) = true ∧
      (((([1, 2, 3] : List Nat) ++ [0xFF, 0xD9]).length : Nat) : Int)
        < 2147483648 ∧
      (([1, 2, 3] : List Nat) ++ [0xFF, 0xD9]).length + 1 ≤ 6 ∧
      ((runXfer (tpClean (([1, 2, 3] : List Nat) ++ [0xFF, 0xD9]))
          (fun _ => true) (fun _ => false)
          (((([1, 2, 3] : List Nat) ++ [0xFF, 0xD9]).length : Nat) : Int) 2 6
          (initXfer
            (((([1, 2, 3] : List Nat) ++ [0xFF, 0xD9]).length : Nat) : Int))).eof
          = true ∧
        (runXfer (tpClean (([1, 2, 3] : List Nat) ++ [0xFF, 0xD9]))
          (fun _ => true) (fun _ => false)
          (((([1, 2, 3] : List Nat) ++ [0xFF, 0xD9]).length : Nat) : Int) 2 6
          (initXfer
            (((([1, 2, 3] : List Nat)
              ++ [0xFF, 0xD9]).length : Nat) : Int))).total_bytes_written
          = (((([1, 2, 3] : List Nat) ++ [0xFF, 0xD9]).length : Nat) : Int) ∧
        transferImageRet (tpClean (([1, 2, 3] : List Nat) ++ [0xFF, 0xD9]))
          (fun _ => true) (fun _ => false)
          (((([1, 2, 3] : List Nat) ++ [0xFF, 0xD9]).length : Nat) : Int) 2 6
          = (((([1, 2, 3] : List Nat) ++ [0xFF, 0xD9]).length : Nat) : Int)) :=
  ⟨by norm_num, by decide, by decide, by decide,
    claim_C3_clean_transfer [1, 2, 3] 2 6 (by norm_num) (by decide) (by decide)
      (by decide)⟩

/-! ## Claim C5: which bytes the classifier skips -/

/-- Claim C5 (refuted, code bug): the spec and the source comment say only
null/zero bytes are skipped during classification, but the `int8_t` cast makes
every byte in 128..255 decode as non-positive and be skipped as well: on input
`[0x80, CR, LF]` with terminator `"\r\n"`, the byte `0x80` is dropped from the
accumulation buffer even though it is neither 0 nor a terminator byte. -/
theorem claim_C5_high_bytes_skipped :
    wrRun (some [13, 10]) none none none [] [128, 13, 10] = (1, [13, 10]) ∧
      toInt8 128 ≤ 0 ∧ (128 : Nat) ≠ 0 ∧ 0 < toInt8 127 := by
  refine ⟨by decide, by decide, by decide, by decide⟩

end Geolux
